import Mathlib

/-!
Verification of the knowledge-graph ranking engine
(`src/v3/@claude-flow/memory/src/memory-graph.ts`, class `MemoryGraph`).

JavaScript `Map<string, V>` is modelled as an insertion-ordered association
list `List (String × V)`: `Map.get` returns the first matching entry,
`Map.set` replaces the entry in place when the key is present (preserving
insertion order) and appends otherwise, `Map.delete` removes the key.
`Set<string>` is modelled as an insertion-ordered duplicate-free
`List String`.  JavaScript numbers are modelled as exact rationals `ℚ`.
-/

namespace MemoryGraphModel

/-- `Map.get`: value of the first entry with the given key. -/
def alistGet {α : Type} : List (String × α) → String → Option α
  | [], _ => none
  | p :: rest, k => if p.1 = k then some p.2 else alistGet rest k

/-- `Map.has`. -/
def alistHas {α : Type} (l : List (String × α)) (k : String) : Bool :=
  (alistGet l k).isSome

/-- `Map.set`: replace in place when present, append otherwise. -/
def alistSet {α : Type} : List (String × α) → String → α → List (String × α)
  | [], k, v => [(k, v)]
  | p :: rest, k, v => if p.1 = k then (k, v) :: rest else p :: alistSet rest k v

/-- `Map.delete`. -/
def alistDelete {α : Type} : List (String × α) → String → List (String × α)
  | [], _ => []
  | p :: rest, k => if p.1 = k then alistDelete rest k else p :: alistDelete rest k

/-- `Set.add`: append when not yet present. -/
def setAdd (s : List String) (x : String) : List String :=
  if x ∈ s then s else s ++ [x]

/-- Key list of an association list. -/
def keys {α : Type} (l : List (String × α)) : List String :=
  l.map (fun p => p.1)

-- ===== Association-list lemmas =====

theorem alistGet_nil {α : Type} (k : String) : alistGet ([] : List (String × α)) k = none := rfl

theorem alistGet_cons {α : Type} (p : String × α) (l : List (String × α)) (k : String) :
    alistGet (p :: l) k = if p.1 = k then some p.2 else alistGet l k := rfl

theorem alistSet_cons {α : Type} (p : String × α) (l : List (String × α)) (k : String) (v : α) :
    alistSet (p :: l) k v = if p.1 = k then (k, v) :: l else p :: alistSet l k v := rfl

theorem alistDelete_cons {α : Type} (p : String × α) (l : List (String × α)) (k : String) :
    alistDelete (p :: l) k = if p.1 = k then alistDelete l k else p :: alistDelete l k := rfl

theorem keys_nil {α : Type} : keys ([] : List (String × α)) = [] := rfl

theorem keys_cons {α : Type} (p : String × α) (l : List (String × α)) :
    keys (p :: l) = p.1 :: keys l := rfl

theorem alistGet_alistSet_self {α : Type} (l : List (String × α)) (k : String) (v : α) :
    alistGet (alistSet l k v) k = some v := by
  induction l with
  | nil => simp [alistSet, alistGet]
  | cons p rest ih =>
    by_cases h : p.1 = k
    · simp [alistSet_cons, alistGet_cons, h]
    · simp [alistSet_cons, alistGet_cons, h, ih]

theorem alistGet_alistSet_ne {α : Type} (l : List (String × α)) {k k' : String} (v : α)
    (h : k' ≠ k) : alistGet (alistSet l k v) k' = alistGet l k' := by
  have hkk : ¬ k = k' := fun hh => h hh.symm
  induction l with
  | nil => simp [alistSet, alistGet, hkk]
  | cons p rest ih =>
    by_cases hp : p.1 = k
    · have hp' : ¬ p.1 = k' := by rw [hp]; exact hkk
      rw [alistSet_cons, if_pos hp, alistGet_cons, alistGet_cons,
        if_neg hkk, if_neg hp']
    · rw [alistSet_cons, if_neg hp, alistGet_cons, alistGet_cons, ih]

theorem alistGet_alistDelete {α : Type} (l : List (String × α)) (k k' : String) :
    alistGet (alistDelete l k) k' = if k' = k then none else alistGet l k' := by
  induction l with
  | nil => simp [alistDelete, alistGet]
  | cons p rest ih =>
    by_cases hp : p.1 = k
    · rw [alistDelete_cons, if_pos hp, ih]
      by_cases hk : k' = k
      · rw [if_pos hk, if_pos hk]
      · have hp' : ¬ p.1 = k' := by rw [hp]; exact fun hh => hk hh.symm
        rw [if_neg hk, if_neg hk, alistGet_cons, if_neg hp']
    · rw [alistDelete_cons, if_neg hp, alistGet_cons, ih, alistGet_cons]
      by_cases hk : k' = k
      · have hp' : ¬ p.1 = k' := by rw [hk]; exact hp
        rw [if_neg hp', if_pos hk, if_pos hk]
      · rw [if_neg hk, if_neg hk]

theorem alistGet_mem {α : Type} {l : List (String × α)} {k : String} {v : α}
    (h : alistGet l k = some v) : (k, v) ∈ l := by
  induction l with
  | nil => simp [alistGet] at h
  | cons p rest ih =>
    rw [alistGet_cons] at h
    by_cases hp : p.1 = k
    · rw [if_pos hp] at h
      have : p = (k, v) := by
        cases p with
        | mk a b =>
          simp only at hp
          injection h with h2
          simp only at h2
          simp [hp, h2]
      rw [this]
      exact List.mem_cons_self _ _
    · rw [if_neg hp] at h
      exact List.mem_cons_of_mem _ (ih h)

theorem mem_keys_of_get {α : Type} {l : List (String × α)} {k : String} {v : α}
    (h : alistGet l k = some v) : k ∈ keys l := by
  have := alistGet_mem h
  simp only [keys, List.mem_map]
  exact ⟨(k, v), this, rfl⟩

theorem alistGet_eq_none_of_not_mem {α : Type} {l : List (String × α)} {k : String}
    (h : k ∉ keys l) : alistGet l k = none := by
  induction l with
  | nil => rfl
  | cons p rest ih =>
    rw [keys_cons] at h
    simp only [List.mem_cons, not_or] at h
    have hp : ¬ p.1 = k := fun hh => h.1 hh.symm
    rw [alistGet_cons, if_neg hp]
    exact ih h.2

theorem mem_keys_iff_isSome {α : Type} (l : List (String × α)) (k : String) :
    k ∈ keys l ↔ (alistGet l k).isSome := by
  constructor
  · intro h
    induction l with
    | nil => simp [keys] at h
    | cons p rest ih =>
      by_cases hp : p.1 = k
      · simp [alistGet_cons, hp]
      · rw [keys_cons] at h
        rcases List.mem_cons.mp h with h | h
        · exact absurd h.symm hp
        · rw [alistGet_cons, if_neg hp]
          exact ih h
  · intro h
    rcases Option.isSome_iff_exists.mp h with ⟨v, hv⟩
    exact mem_keys_of_get hv

theorem alistHas_iff_mem_keys {α : Type} (l : List (String × α)) (k : String) :
    alistHas l k = true ↔ k ∈ keys l := by
  rw [alistHas, mem_keys_iff_isSome]

theorem alistHas_false_iff {α : Type} (l : List (String × α)) (k : String) :
    alistHas l k = false ↔ k ∉ keys l := by
  rw [← alistHas_iff_mem_keys]
  constructor
  · intro h hh
    rw [h] at hh
    exact Bool.false_ne_true hh
  · intro h
    cases hb : alistHas l k
    · rfl
    · exact absurd hb h

theorem alistGet_of_mem_nodup {α : Type} {l : List (String × α)} {k : String} {v : α}
    (hnd : (keys l).Nodup) (h : (k, v) ∈ l) : alistGet l k = some v := by
  induction l with
  | nil => simp at h
  | cons p rest ih =>
    rw [keys_cons, List.nodup_cons] at hnd
    rcases List.mem_cons.mp h with h | h
    · rw [← h]
      simp [alistGet_cons]
    · have hmem : k ∈ keys rest := by
        simp only [keys, List.mem_map]
        exact ⟨(k, v), h, rfl⟩
      have hp : ¬ p.1 = k := fun hh => hnd.1 (hh ▸ hmem)
      rw [alistGet_cons, if_neg hp]
      exact ih hnd.2 h

theorem keys_alistSet_of_mem {α : Type} {l : List (String × α)} {k : String} (v : α)
    (h : k ∈ keys l) : keys (alistSet l k v) = keys l := by
  induction l with
  | nil => simp [keys] at h
  | cons p rest ih =>
    by_cases hp : p.1 = k
    · rw [alistSet_cons, if_pos hp, keys_cons, keys_cons, hp]
    · rw [keys_cons] at h
      rcases List.mem_cons.mp h with h | h
      · exact absurd h.symm hp
      · rw [alistSet_cons, if_neg hp, keys_cons, keys_cons, ih h]

theorem keys_alistSet_of_not_mem {α : Type} {l : List (String × α)} {k : String} (v : α)
    (h : k ∉ keys l) : keys (alistSet l k v) = keys l ++ [k] := by
  induction l with
  | nil => simp [alistSet, keys]
  | cons p rest ih =>
    rw [keys_cons] at h
    simp only [List.mem_cons, not_or] at h
    have hp : ¬ p.1 = k := fun hh => h.1 hh.symm
    rw [alistSet_cons, if_neg hp, keys_cons, keys_cons, ih h.2, List.cons_append]

theorem keys_alistSet_nodup {α : Type} {l : List (String × α)} {k : String} (v : α)
    (hnd : (keys l).Nodup) : (keys (alistSet l k v)).Nodup := by
  by_cases h : k ∈ keys l
  · rw [keys_alistSet_of_mem v h]; exact hnd
  · rw [keys_alistSet_of_not_mem v h]
    apply List.Nodup.append hnd (List.nodup_singleton k)
    intro a ha hb
    rw [List.mem_singleton] at hb
    exact h (hb ▸ ha)

theorem mem_keys_alistSet {α : Type} (l : List (String × α)) (k k' : String) (v : α) :
    k' ∈ keys (alistSet l k v) ↔ k' ∈ keys l ∨ k' = k := by
  by_cases h : k ∈ keys l
  · rw [keys_alistSet_of_mem v h]
    constructor
    · exact Or.inl
    · rintro (hh | rfl)
      · exact hh
      · exact h
  · rw [keys_alistSet_of_not_mem v h]
    simp

theorem keys_alistDelete {α : Type} (l : List (String × α)) (k : String) :
    keys (alistDelete l k) = (keys l).filter (fun x => x ≠ k) := by
  induction l with
  | nil => simp [alistDelete, keys]
  | cons p rest ih =>
    by_cases hp : p.1 = k
    · rw [alistDelete_cons, if_pos hp, ih, keys_cons, List.filter_cons]
      have : ¬ (p.1 ≠ k) := by simpa using hp
      simp [this]
    · rw [alistDelete_cons, if_neg hp, keys_cons, keys_cons, ih, List.filter_cons]
      simp [hp]

theorem keys_alistDelete_nodup {α : Type} {l : List (String × α)} (k : String)
    (hnd : (keys l).Nodup) : (keys (alistDelete l k)).Nodup := by
  rw [keys_alistDelete]
  exact hnd.filter _

theorem mem_keys_alistDelete {α : Type} (l : List (String × α)) (k k' : String) :
    k' ∈ keys (alistDelete l k) ↔ k' ∈ keys l ∧ k' ≠ k := by
  rw [keys_alistDelete, List.mem_filter]
  simp

theorem mem_setAdd {s : List String} {x y : String} :
    y ∈ setAdd s x ↔ y ∈ s ∨ y = x := by
  unfold setAdd
  by_cases h : x ∈ s
  · simp only [if_pos h]
    constructor
    · exact Or.inl
    · rintro (hy | rfl)
      · exact hy
      · exact h
  · simp [if_neg h]

theorem setAdd_nodup {s : List String} {x : String} (h : s.Nodup) :
    (setAdd s x).Nodup := by
  unfold setAdd
  by_cases hx : x ∈ s
  · simpa [hx] using h
  · simp only [if_neg hx]
    apply List.Nodup.append h (List.nodup_singleton x)
    intro a ha hb
    rw [List.mem_singleton] at hb
    exact hx (hb ▸ ha)

-- ===== Data model (memory-graph.ts) =====

/-- `EdgeType` of memory-graph.ts. -/
inductive EdgeType : Type
  | reference | similar | temporal | coAccessed | causal
deriving DecidableEq

/-- `GraphNode` of memory-graph.ts. -/
structure GraphNode : Type where
  id : String
  category : String
  confidence : ℚ
  accessCount : ℕ
  createdAt : ℤ
deriving DecidableEq

/-- `GraphEdge` of memory-graph.ts. -/
structure GraphEdge : Type where
  targetId : String
  type : EdgeType
  weight : ℚ
deriving DecidableEq

/-- The parts of `MemoryEntry` consumed by the graph: id, optional metadata
category and confidence, accessCount, createdAt, references. -/
structure MemoryEntry : Type where
  id : String
  metadataCategory : Option String
  metadataConfidence : Option ℚ
  accessCount : ℕ
  createdAt : ℤ
  references : List String
deriving DecidableEq

/-- `MemoryGraphConfig` (resolved with defaults, i.e. `Required<...>`). -/
structure MemoryGraphConfig : Type where
  similarityThreshold : ℚ
  pageRankDamping : ℚ
  pageRankIterations : ℕ
  pageRankConvergence : ℚ
  maxNodes : ℕ
deriving DecidableEq

/-- `DEFAULT_CONFIG` of memory-graph.ts. -/
def DEFAULT_CONFIG : MemoryGraphConfig :=
  { similarityThreshold := 8/10
    pageRankDamping := 85/100
    pageRankIterations := 50
    pageRankConvergence := 1/1000000
    maxNodes := 5000 }

/-- The mutable state of a `MemoryGraph` instance: the five maps and the
`dirty` staleness flag. -/
structure MemoryGraph : Type where
  nodes : List (String × GraphNode)
  edges : List (String × List GraphEdge)
  reverseEdges : List (String × List String)
  pageRanks : List (String × ℚ)
  communities : List (String × String)
  dirty : Bool
deriving DecidableEq

/-- The freshly constructed instance (all maps empty, `dirty = true`). -/
def emptyGraph : MemoryGraph :=
  { nodes := [], edges := [], reverseEdges := [], pageRanks := [],
    communities := [], dirty := true }

-- ===== Graph Store operations =====

/-- The `GraphNode` stored by `addNode`.  JavaScript `x || default` yields the
default on any falsy `x`: an absent field, the number `0`, or the empty
string. -/
def mkNode (entry : MemoryEntry) : GraphNode :=
  { id := entry.id
    category := match entry.metadataCategory with
      | none => "general"
      | some c => if c = "" then "general" else c
    confidence := match entry.metadataConfidence with
      | none => 1/2
      | some c => if c = 0 then 1/2 else c
    accessCount := entry.accessCount
    createdAt := entry.createdAt }

/-- `addNode(entry)`: no-op at capacity for new ids; otherwise stores the
node, ensures forward/reverse adjacency entries exist, and marks dirty. -/
def addNode (cfg : MemoryGraphConfig) (g : MemoryGraph) (entry : MemoryEntry) :
    MemoryGraph :=
  if cfg.maxNodes ≤ g.nodes.length ∧ alistHas g.nodes entry.id = false then g
  else
    { g with
      nodes := alistSet g.nodes entry.id (mkNode entry)
      edges := if alistHas g.edges entry.id then g.edges
               else alistSet g.edges entry.id []
      reverseEdges := if alistHas g.reverseEdges entry.id then g.reverseEdges
                      else alistSet g.reverseEdges entry.id []
      dirty := true }

/-- `edgeList.find(e => e.targetId === targetId)` followed by
`existing.weight = Math.max(existing.weight, weight)`: raise the weight of
the first edge aimed at `targetId` to the max, keeping its type. -/
def updateFirstEdge : List GraphEdge → String → ℚ → List GraphEdge
  | [], _, _ => []
  | e :: rest, t, w =>
    if e.targetId = t then { e with weight := max e.weight w } :: rest
    else e :: updateFirstEdge rest t w

/-- The private `hasEdge` helper of memory-graph.ts. -/
def hasEdge (g : MemoryGraph) (sourceId targetId : String) : Bool :=
  match alistGet g.edges sourceId with
  | some l => l.any (fun e => e.targetId = targetId)
  | none => false

/-- `addEdge(sourceId, targetId, type, weight)`: no-op when either endpoint
is missing; otherwise max-merge into an existing edge or append a new one,
record the source in the target's reverse set, and mark dirty. -/
def addEdge (g : MemoryGraph) (sourceId targetId : String) (ty : EdgeType)
    (weight : ℚ) : MemoryGraph :=
  if alistHas g.nodes sourceId = false ∨ alistHas g.nodes targetId = false then g
  else
    let edgeList := (alistGet g.edges sourceId).getD []
    let newList :=
      if edgeList.any (fun e => e.targetId = targetId) then
        updateFirstEdge edgeList targetId weight
      else edgeList ++ [{ targetId := targetId, type := ty, weight := weight }]
    { g with
      edges := alistSet g.edges sourceId newList
      reverseEdges := alistSet g.reverseEdges targetId
        (setAdd ((alistGet g.reverseEdges targetId).getD []) sourceId)
      dirty := true }

/-- In-place update of one map entry when the key is present
(`map.get(k)?.mutate` / `if (x) map.set(k, f x)` patterns). -/
def modifyEntry {α : Type} (m : List (String × α)) (k : String) (f : α → α) :
    List (String × α) :=
  match alistGet m k with
  | some v => alistSet m k (f v)
  | none => m

/-- `removeNode(id)`: drop outgoing edges (cleaning each target's reverse
set), drop incoming edges (filtering each recorded source's list), then
delete the node and its cached entries. -/
def removeNode (g : MemoryGraph) (id : String) : MemoryGraph :=
  if alistHas g.nodes id = false then g
  else
    let outgoing := (alistGet g.edges id).getD []
    let rev1 := outgoing.foldl
      (fun rev e => modifyEntry rev e.targetId (fun s => s.filter (fun x => x ≠ id)))
      g.reverseEdges
    let edges1 := alistDelete g.edges id
    let incoming := (alistGet rev1 id).getD []
    let edges2 := incoming.foldl
      (fun ed srcId => modifyEntry ed srcId (fun l => l.filter (fun e => e.targetId ≠ id)))
      edges1
    { nodes := alistDelete g.nodes id
      edges := edges2
      reverseEdges := alistDelete rev1 id
      pageRanks := alistDelete g.pageRanks id
      communities := alistDelete g.communities id
      dirty := true }

/-- `buildFromBackend`: one pass of `addNode` over the fetched entries, then
one pass of `addEdge(entry.id, refId, 'reference')` (default weight 1), then
mark dirty.  The backend query result is the `entries` argument. -/
def buildFromBackend (cfg : MemoryGraphConfig) (g : MemoryGraph)
    (entries : List MemoryEntry) : MemoryGraph :=
  let g1 := entries.foldl (addNode cfg) g
  let g2 := entries.foldl
    (fun acc entry => entry.references.foldl
      (fun a refId => addEdge a entry.id refId EdgeType.reference 1) acc)
    g1
  { g2 with dirty := true }

-- ===== Operation sequences =====

/-- One externally invokable structural mutation. -/
inductive Op : Type
  | opAddNode (entry : MemoryEntry)
  | opAddEdge (sourceId targetId : String) (ty : EdgeType) (weight : ℚ)
  | opRemoveNode (id : String)
  | opBuild (entries : List MemoryEntry)

/-- Apply one operation. -/
def applyOp (cfg : MemoryGraphConfig) (g : MemoryGraph) : Op → MemoryGraph
  | Op.opAddNode entry => addNode cfg g entry
  | Op.opAddEdge s t ty w => addEdge g s t ty w
  | Op.opRemoveNode id => removeNode g id
  | Op.opBuild entries => buildFromBackend cfg g entries

/-- The state after running a sequence of operations on a fresh instance. -/
def runOps (cfg : MemoryGraphConfig) (ops : List Op) : MemoryGraph :=
  ops.foldl (applyOp cfg) emptyGraph

-- ===== Well-formedness invariant =====

/-- The structural invariant every reachable `MemoryGraph` state satisfies:
all five maps have duplicate-free keys; every edge-map entry belongs to a
node, has duplicate-free targets, and every edge's target is a node whose
reverse set records the source; every reverse-set element really holds an
edge into that node; every node has forward/reverse adjacency entries; and
the cached rank/community tables only mention nodes. -/
def WF (g : MemoryGraph) : Prop :=
  (keys g.nodes).Nodup ∧
  (keys g.edges).Nodup ∧
  (keys g.reverseEdges).Nodup ∧
  (keys g.pageRanks).Nodup ∧
  (keys g.communities).Nodup ∧
  (∀ p ∈ g.edges, p.1 ∈ keys g.nodes ∧ (p.2.map (fun e => e.targetId)).Nodup ∧
    ∀ e ∈ p.2, e.targetId ∈ keys g.nodes ∧
      p.1 ∈ (alistGet g.reverseEdges e.targetId).getD []) ∧
  (∀ p ∈ g.reverseEdges, p.1 ∈ keys g.nodes ∧ p.2.Nodup ∧
    ∀ s ∈ p.2, hasEdge g s p.1 = true) ∧
  (∀ v ∈ keys g.nodes, v ∈ keys g.edges ∧ v ∈ keys g.reverseEdges) ∧
  (∀ v ∈ keys g.pageRanks, v ∈ keys g.nodes) ∧
  (∀ v ∈ keys g.communities, v ∈ keys g.nodes)

instance (g : MemoryGraph) : Decidable (WF g) := by
  unfold WF
  infer_instance

theorem wf_empty : WF emptyGraph := by decide

theorem hasEdge_iff_exists {g : MemoryGraph} {s t : String} :
    hasEdge g s t = true ↔
      ∃ l, alistGet g.edges s = some l ∧ ∃ e ∈ l, e.targetId = t := by
  unfold hasEdge
  cases h : alistGet g.edges s with
  | none => simp
  | some l => simp

/-- WF consistency: the reverse index records exactly the forward edges. -/
theorem WF.rev_iff_hasEdge {g : MemoryGraph} (h : WF g) (s v : String) :
    s ∈ (alistGet g.reverseEdges v).getD [] ↔ hasEdge g s v = true := by
  obtain ⟨-, -, -, -, -, hedges, hrev, -, -, -⟩ := h
  constructor
  · intro hs
    cases hg : alistGet g.reverseEdges v with
    | none => rw [hg] at hs; simp at hs
    | some srcs =>
      rw [hg] at hs
      simp only [Option.getD_some] at hs
      exact (hrev (v, srcs) (alistGet_mem hg)).2.2 s hs
  · intro hs
    rcases hasEdge_iff_exists.mp hs with ⟨l, hl, e, he, ht⟩
    have := (hedges (s, l) (alistGet_mem hl)).2.2 e he
    rw [ht] at this
    exact this.2

-- ===== More association-list lemmas =====

theorem alistGet_eq_none_of_has_false {α : Type} {l : List (String × α)} {k : String}
    (h : alistHas l k = false) : alistGet l k = none := by
  unfold alistHas at h
  cases hg : alistGet l k with
  | none => rfl
  | some v => rw [hg] at h; simp at h

theorem alistHas_true_iff {α : Type} (l : List (String × α)) (k : String) :
    alistHas l k = true ↔ k ∈ keys l := alistHas_iff_mem_keys l k

theorem alistSet_of_not_mem {α : Type} {l : List (String × α)} {k : String} (v : α)
    (h : k ∉ keys l) : alistSet l k v = l ++ [(k, v)] := by
  induction l with
  | nil => rfl
  | cons p rest ih =>
    rw [keys_cons] at h
    simp only [List.mem_cons, not_or] at h
    have hp : ¬ p.1 = k := fun hh => h.1 hh.symm
    rw [alistSet_cons, if_neg hp, ih h.2, List.cons_append]

theorem mem_alistSet_iff {α : Type} {l : List (String × α)} {k : String} {v : α}
    (hnd : (keys l).Nodup) (p : String × α) :
    p ∈ alistSet l k v ↔ p = (k, v) ∨ (p ∈ l ∧ p.1 ≠ k) := by
  induction l with
  | nil =>
    simp [alistSet]
  | cons q rest ih =>
    rw [keys_cons, List.nodup_cons] at hnd
    by_cases hq : q.1 = k
    · rw [alistSet_cons, if_pos hq]
      constructor
      · intro hp
        rcases List.mem_cons.mp hp with hp | hp
        · exact Or.inl hp
        · refine Or.inr ⟨List.mem_cons_of_mem _ hp, ?_⟩
          intro hk
          apply hnd.1
          rw [← hq] at hk
          rw [← hk]
          simp only [keys, List.mem_map]
          exact ⟨p, hp, rfl⟩
      · rintro (hp | ⟨hp, hpk⟩)
        · exact hp ▸ List.mem_cons_self _ _
        · rcases List.mem_cons.mp hp with hp | hp
          · exact absurd (hp ▸ hq) hpk
          · exact List.mem_cons_of_mem _ hp
    · rw [alistSet_cons, if_neg hq]
      constructor
      · intro hp
        rcases List.mem_cons.mp hp with hp | hp
        · exact Or.inr ⟨hp ▸ List.mem_cons_self _ _, hp ▸ hq⟩
        · rcases (ih hnd.2).mp hp with hp | ⟨hp, hpk⟩
          · exact Or.inl hp
          · exact Or.inr ⟨List.mem_cons_of_mem _ hp, hpk⟩
      · rintro (hp | ⟨hp, hpk⟩)
        · exact List.mem_cons_of_mem _ ((ih hnd.2).mpr (Or.inl hp))
        · rcases List.mem_cons.mp hp with hp | hp
          · exact hp ▸ List.mem_cons_self _ _
          · exact List.mem_cons_of_mem _ ((ih hnd.2).mpr (Or.inr ⟨hp, hpk⟩))

theorem mem_alistDelete_iff {α : Type} {l : List (String × α)} {k : String}
    (p : String × α) : p ∈ alistDelete l k ↔ p ∈ l ∧ p.1 ≠ k := by
  induction l with
  | nil => simp [alistDelete]
  | cons q rest ih =>
    by_cases hq : q.1 = k
    · rw [alistDelete_cons, if_pos hq, ih]
      constructor
      · intro ⟨hp, hpk⟩
        exact ⟨List.mem_cons_of_mem _ hp, hpk⟩
      · intro ⟨hp, hpk⟩
        rcases List.mem_cons.mp hp with hp | hp
        · exact absurd (hp ▸ hq) hpk
        · exact ⟨hp, hpk⟩
    · rw [alistDelete_cons, if_neg hq]
      constructor
      · intro hp
        rcases List.mem_cons.mp hp with hp | hp
        · exact ⟨hp ▸ List.mem_cons_self _ _, hp ▸ hq⟩
        · have := ih.mp hp
          exact ⟨List.mem_cons_of_mem _ this.1, this.2⟩
      · intro ⟨hp, hpk⟩
        rcases List.mem_cons.mp hp with hp | hp
        · exact hp ▸ List.mem_cons_self _ _
        · exact List.mem_cons_of_mem _ (ih.mpr ⟨hp, hpk⟩)

-- ===== WF preservation: addNode =====

/-- `addNode` never changes which edges exist. -/
theorem hasEdge_addNode (cfg : MemoryGraphConfig) (g : MemoryGraph)
    (entry : MemoryEntry) (s t : String) :
    hasEdge (addNode cfg g entry) s t = hasEdge g s t := by
  unfold addNode
  by_cases hcap : cfg.maxNodes ≤ g.nodes.length ∧ alistHas g.nodes entry.id = false
  · rw [if_pos hcap]
  · rw [if_neg hcap]
    unfold hasEdge
    by_cases hse : alistHas g.edges entry.id
    · simp only [hse, if_pos]
    · simp only [hse, Bool.false_eq_true, if_neg, not_false_iff]
      by_cases hs : s = entry.id
      · subst hs
        rw [alistGet_alistSet_self]
        rw [alistGet_eq_none_of_has_false (Bool.eq_false_iff.mpr hse)]
        simp
      · rw [alistGet_alistSet_ne _ _ hs]

theorem wf_addNode (cfg : MemoryGraphConfig) {g : MemoryGraph} (h : WF g)
    (entry : MemoryEntry) : WF (addNode cfg g entry) := by
  unfold addNode
  by_cases hcap : cfg.maxNodes ≤ g.nodes.length ∧ alistHas g.nodes entry.id = false
  · rw [if_pos hcap]; exact h
  · rw [if_neg hcap]
    obtain ⟨h1, h2, h3, h4, h5, h6, h7, h8, h9, h10⟩ := h
    set idn := entry.id with hidn
    set N' := alistSet g.nodes idn (mkNode entry) with hN
    set E := (if alistHas g.edges idn = true then g.edges
              else alistSet g.edges idn []) with hE
    set R := (if alistHas g.reverseEdges idn = true then g.reverseEdges
              else alistSet g.reverseEdges idn []) with hR
    have hmemN : ∀ v, v ∈ keys N' ↔ v ∈ keys g.nodes ∨ v = idn := fun v =>
      mem_keys_alistSet g.nodes idn v (mkNode entry)
    -- characterization of E
    have hkeysE : ∀ v, v ∈ keys E ↔ v ∈ keys g.edges ∨ v = idn := by
      intro v
      rw [hE]
      by_cases hse : alistHas g.edges idn
      · rw [if_pos hse]
        have hidm := (alistHas_true_iff _ _).mp hse
        constructor
        · exact Or.inl
        · rintro (hv | rfl)
          · exact hv
          · exact hidm
      · rw [if_neg hse]
        exact mem_keys_alistSet g.edges idn v []
    have hgetE : ∀ k, alistGet E k =
        if k = idn ∧ alistHas g.edges idn = false then some []
        else alistGet g.edges k := by
      intro k
      rw [hE]
      by_cases hse : alistHas g.edges idn
      · rw [if_pos hse, if_neg]
        rintro ⟨-, hk⟩
        rw [hse] at hk
        exact Bool.noConfusion hk
      · have hse' : alistHas g.edges idn = false := Bool.eq_false_iff.mpr hse
        rw [if_neg hse]
        by_cases hk : k = idn
        · subst hk
          rw [alistGet_alistSet_self, if_pos ⟨rfl, hse'⟩]
        · rw [alistGet_alistSet_ne _ _ hk, if_neg (fun hc => hk hc.1)]
    have hmemE : ∀ p, p ∈ E ↔ p ∈ g.edges ∨
        (p = (idn, ([] : List GraphEdge)) ∧ alistHas g.edges idn = false) := by
      intro p
      rw [hE]
      by_cases hse : alistHas g.edges idn
      · rw [if_pos hse]
        constructor
        · exact Or.inl
        · rintro (hp | ⟨-, hff⟩)
          · exact hp
          · rw [hse] at hff; exact Bool.noConfusion hff
      · have hse' : alistHas g.edges idn = false := Bool.eq_false_iff.mpr hse
        rw [if_neg hse]
        rw [alistSet_of_not_mem [] ((alistHas_false_iff _ _).mp hse')]
        simp only [List.mem_append, List.mem_singleton]
        constructor
        · rintro (hp | hp)
          · exact Or.inl hp
          · exact Or.inr ⟨hp, hse'⟩
        · rintro (hp | ⟨hp, -⟩)
          · exact Or.inl hp
          · exact Or.inr hp
    have hnodupE : (keys E).Nodup := by
      rw [hE]
      by_cases hse : alistHas g.edges idn
      · rw [if_pos hse]; exact h2
      · rw [if_neg hse]
        exact keys_alistSet_nodup _ h2
    -- characterization of R
    have hkeysR : ∀ v, v ∈ keys R ↔ v ∈ keys g.reverseEdges ∨ v = idn := by
      intro v
      rw [hR]
      by_cases hsr : alistHas g.reverseEdges idn
      · rw [if_pos hsr]
        have hidm := (alistHas_true_iff _ _).mp hsr
        constructor
        · exact Or.inl
        · rintro (hv | rfl)
          · exact hv
          · exact hidm
      · rw [if_neg hsr]
        exact mem_keys_alistSet g.reverseEdges idn v []
    have hgetR : ∀ k, alistGet R k =
        if k = idn ∧ alistHas g.reverseEdges idn = false then some []
        else alistGet g.reverseEdges k := by
      intro k
      rw [hR]
      by_cases hsr : alistHas g.reverseEdges idn
      · rw [if_pos hsr, if_neg]
        rintro ⟨-, hk⟩
        rw [hsr] at hk
        exact Bool.noConfusion hk
      · have hsr' : alistHas g.reverseEdges idn = false := Bool.eq_false_iff.mpr hsr
        rw [if_neg hsr]
        by_cases hk : k = idn
        · subst hk
          rw [alistGet_alistSet_self, if_pos ⟨rfl, hsr'⟩]
        · rw [alistGet_alistSet_ne _ _ hk, if_neg (fun hc => hk hc.1)]
    have hmemR : ∀ p, p ∈ R ↔ p ∈ g.reverseEdges ∨
        (p = (idn, ([] : List String)) ∧ alistHas g.reverseEdges idn = false) := by
      intro p
      rw [hR]
      by_cases hsr : alistHas g.reverseEdges idn
      · rw [if_pos hsr]
        constructor
        · exact Or.inl
        · rintro (hp | ⟨-, hff⟩)
          · exact hp
          · rw [hsr] at hff; exact Bool.noConfusion hff
      · have hsr' : alistHas g.reverseEdges idn = false := Bool.eq_false_iff.mpr hsr
        rw [if_neg hsr]
        rw [alistSet_of_not_mem [] ((alistHas_false_iff _ _).mp hsr')]
        simp only [List.mem_append, List.mem_singleton]
        constructor
        · rintro (hp | hp)
          · exact Or.inl hp
          · exact Or.inr ⟨hp, hsr'⟩
        · rintro (hp | ⟨hp, -⟩)
          · exact Or.inl hp
          · exact Or.inr hp
    have hnodupR : (keys R).Nodup := by
      rw [hR]
      by_cases hsr : alistHas g.reverseEdges idn
      · rw [if_pos hsr]; exact h3
      · rw [if_neg hsr]
        exact keys_alistSet_nodup _ h3
    -- hasEdge in the new state equals hasEdge in g
    have hHE : ∀ s t : String,
        (match alistGet E s with
         | some l => l.any (fun e => e.targetId = t)
         | none => false) = hasEdge g s t := by
      intro s t
      rw [hgetE s]
      by_cases hs : s = idn ∧ alistHas g.edges idn = false
      · rw [if_pos hs]
        unfold hasEdge
        rw [hs.1, alistGet_eq_none_of_has_false hs.2]
        simp
      · rw [if_neg hs]
        rfl
    refine ⟨keys_alistSet_nodup _ h1, hnodupE, hnodupR, h4, h5, ?_, ?_, ?_, ?_, ?_⟩
    · -- edge-map clause
      intro p hp
      rcases (hmemE p).mp hp with hp | ⟨rfl, -⟩
      · obtain ⟨hm, hnd, hall⟩ := h6 p hp
        refine ⟨(hmemN p.1).mpr (Or.inl hm), hnd, ?_⟩
        intro e he
        obtain ⟨ht, hr⟩ := hall e he
        refine ⟨(hmemN e.targetId).mpr (Or.inl ht), ?_⟩
        rw [hgetR e.targetId]
        by_cases hc : e.targetId = idn ∧ alistHas g.reverseEdges idn = false
        · exfalso
          rw [hc.1, alistGet_eq_none_of_has_false hc.2] at hr
          simp at hr
        · rw [if_neg hc]
          exact hr
      · exact ⟨(hmemN idn).mpr (Or.inr rfl), by simp, by simp⟩
    · -- reverse-map clause
      intro p hp
      rcases (hmemR p).mp hp with hp | ⟨rfl, -⟩
      · obtain ⟨hm, hnd, hall⟩ := h7 p hp
        refine ⟨(hmemN p.1).mpr (Or.inl hm), hnd, ?_⟩
        intro s hs
        have := hall s hs
        unfold hasEdge
        simp only
        rw [hHE s p.1]
        exact this
      · exact ⟨(hmemN idn).mpr (Or.inr rfl), by simp, by simp⟩
    · -- nodes have adjacency entries
      intro v hv
      rcases (hmemN v).mp hv with hv' | hveq
      · obtain ⟨he, hr⟩ := h8 v hv'
        exact ⟨(hkeysE v).mpr (Or.inl he), (hkeysR v).mpr (Or.inl hr)⟩
      · exact ⟨(hkeysE v).mpr (Or.inr hveq), (hkeysR v).mpr (Or.inr hveq)⟩
    · intro v hv
      exact (hmemN v).mpr (Or.inl (h9 v hv))
    · intro v hv
      exact (hmemN v).mpr (Or.inl (h10 v hv))

-- ===== WF preservation: addEdge =====

/-- `hasEdge` as a function of the edge map alone. -/
def hasEdgeIn (edges : List (String × List GraphEdge)) (s t : String) : Bool :=
  match alistGet edges s with
  | some l => l.any (fun e => e.targetId = t)
  | none => false

theorem hasEdge_eq_hasEdgeIn (g : MemoryGraph) (s t : String) :
    hasEdge g s t = hasEdgeIn g.edges s t := rfl

theorem hasEdgeIn_iff_exists {E : List (String × List GraphEdge)} {s t : String} :
    hasEdgeIn E s t = true ↔
      ∃ l, alistGet E s = some l ∧ ∃ e ∈ l, e.targetId = t := by
  unfold hasEdgeIn
  cases h : alistGet E s with
  | none => simp
  | some l => simp

theorem updateFirstEdge_cons (e : GraphEdge) (rest : List GraphEdge)
    (t : String) (w : ℚ) :
    updateFirstEdge (e :: rest) t w =
      if e.targetId = t then { e with weight := max e.weight w } :: rest
      else e :: updateFirstEdge rest t w := rfl

theorem updateFirstEdge_map_targetId (l : List GraphEdge) (t : String) (w : ℚ) :
    (updateFirstEdge l t w).map (fun e => e.targetId) =
      l.map (fun e => e.targetId) := by
  induction l with
  | nil => rfl
  | cons e rest ih =>
    rw [updateFirstEdge_cons]
    by_cases he : e.targetId = t
    · rw [if_pos he]
      simp
    · rw [if_neg he]
      simp [ih]

theorem mem_updateFirstEdge {l : List GraphEdge} {t : String} {w : ℚ}
    {e' : GraphEdge} (h : e' ∈ updateFirstEdge l t w) :
    ∃ e ∈ l, e'.targetId = e.targetId ∧ e'.type = e.type := by
  induction l with
  | nil => simp [updateFirstEdge] at h
  | cons e rest ih =>
    rw [updateFirstEdge_cons] at h
    by_cases he : e.targetId = t
    · rw [if_pos he] at h
      rcases List.mem_cons.mp h with h | h
      · exact ⟨e, List.mem_cons_self _ _, by rw [h], by rw [h]⟩
      · exact ⟨e', List.mem_cons_of_mem _ h, rfl, rfl⟩
    · rw [if_neg he] at h
      rcases List.mem_cons.mp h with h | h
      · exact ⟨e, List.mem_cons_self _ _, by rw [h], by rw [h]⟩
      · rcases ih h with ⟨e0, he0, ht0, hty0⟩
        exact ⟨e0, List.mem_cons_of_mem _ he0, ht0, hty0⟩

theorem updateFirstEdge_any (l : List GraphEdge) (t t' : String) (w : ℚ) :
    (updateFirstEdge l t w).any (fun e => e.targetId = t') =
      l.any (fun e => e.targetId = t') := by
  induction l with
  | nil => rfl
  | cons e rest ih =>
    rw [updateFirstEdge_cons]
    by_cases he : e.targetId = t
    · rw [if_pos he]
      simp
    · rw [if_neg he]
      simp [ih]

/-- `addEdge` when both endpoints exist, with the `let`s expanded. -/
theorem addEdge_of_has (g : MemoryGraph) (s t : String) (ty : EdgeType) (w : ℚ)
    (hs : alistHas g.nodes s = true) (ht : alistHas g.nodes t = true) :
    addEdge g s t ty w =
      { g with
        edges := alistSet g.edges s
          (if ((alistGet g.edges s).getD []).any (fun e => e.targetId = t)
           then updateFirstEdge ((alistGet g.edges s).getD []) t w
           else ((alistGet g.edges s).getD []) ++
             [{ targetId := t, type := ty, weight := w }])
        reverseEdges := alistSet g.reverseEdges t
          (setAdd ((alistGet g.reverseEdges t).getD []) s)
        dirty := true } := by
  unfold addEdge
  rw [if_neg]
  rintro (hc | hc)
  · rw [hs] at hc; exact Bool.noConfusion hc
  · rw [ht] at hc; exact Bool.noConfusion hc

theorem addEdge_noop {g : MemoryGraph} {s t : String} (ty : EdgeType) (w : ℚ)
    (h : alistHas g.nodes s = false ∨ alistHas g.nodes t = false) :
    addEdge g s t ty w = g := by
  unfold addEdge
  rw [if_pos]
  rcases h with h | h
  · exact Or.inl (by rw [h])
  · exact Or.inr (by rw [h])

theorem wf_addEdge {g : MemoryGraph} (h : WF g) (s t : String) (ty : EdgeType)
    (w : ℚ) : WF (addEdge g s t ty w) := by
  cases hs : alistHas g.nodes s with
  | false => rw [addEdge_noop ty w (Or.inl hs)]; exact h
  | true =>
  cases ht : alistHas g.nodes t with
  | false => rw [addEdge_noop ty w (Or.inr ht)]; exact h
  | true =>
  rw [addEdge_of_has g s t ty w hs ht]
  obtain ⟨h1, h2, h3, h4, h5, h6, h7, h8, h9, h10⟩ := h
  have hsm : s ∈ keys g.nodes := (alistHas_true_iff _ _).mp hs
  have htm : t ∈ keys g.nodes := (alistHas_true_iff _ _).mp ht
  -- the stored forward list of s and reverse set of t exist
  obtain ⟨oldList, holdList⟩ :=
    Option.isSome_iff_exists.mp ((mem_keys_iff_isSome _ _).mp (h8 s hsm).1)
  obtain ⟨oldSet, holdSet⟩ :=
    Option.isSome_iff_exists.mp ((mem_keys_iff_isSome _ _).mp (h8 t htm).2)
  obtain ⟨hsm2, hndOld, hallOld⟩ := h6 (s, oldList) (alistGet_mem holdList)
  obtain ⟨htm2, hndSet, hallSet⟩ := h7 (t, oldSet) (alistGet_mem holdSet)
  set newList := (if ((alistGet g.edges s).getD []).any (fun e => e.targetId = t)
    then updateFirstEdge ((alistGet g.edges s).getD []) t w
    else ((alistGet g.edges s).getD []) ++
      [{ targetId := t, type := ty, weight := w }]) with hnewList
  set newSet := setAdd ((alistGet g.reverseEdges t).getD []) s with hnewSet
  have hglD : (alistGet g.edges s).getD [] = oldList := by rw [holdList]; rfl
  have hgsD : (alistGet g.reverseEdges t).getD [] = oldSet := by rw [holdSet]; rfl
  have hnewSet2 : newSet = setAdd oldSet s := by rw [hnewSet, hgsD]
  -- any queries on the new list dominate those on the old one
  have hAnyMono : ∀ t', oldList.any (fun e => e.targetId = t') = true →
      newList.any (fun e => e.targetId = t') = true := by
    intro t' ha
    rw [hnewList, hglD]
    by_cases hc : oldList.any (fun e => e.targetId = t)
    · rw [if_pos hc, updateFirstEdge_any]
      exact ha
    · rw [if_neg hc, List.any_append, ha, Bool.true_or]
  have hAnyT : newList.any (fun e => e.targetId = t) = true := by
    rw [hnewList, hglD]
    by_cases hc : oldList.any (fun e => e.targetId = t)
    · rw [if_pos hc, updateFirstEdge_any]
      exact hc
    · rw [if_neg hc, List.any_append]
      simp
  -- characterize membership in the new list
  have hmemNew : ∀ e' ∈ newList,
      (∃ e ∈ oldList, e'.targetId = e.targetId) ∨ e'.targetId = t := by
    intro e' he'
    rw [hnewList, hglD] at he'
    by_cases hc : oldList.any (fun e => e.targetId = t)
    · rw [if_pos hc] at he'
      rcases mem_updateFirstEdge he' with ⟨e, he, hte, -⟩
      exact Or.inl ⟨e, he, hte⟩
    · rw [if_neg hc] at he'
      rcases List.mem_append.mp he' with he' | he'
      · exact Or.inl ⟨e', he', rfl⟩
      · rw [List.mem_singleton] at he'
        rw [he']
        exact Or.inr rfl
  have hndNew : (newList.map (fun e => e.targetId)).Nodup := by
    rw [hnewList, hglD]
    by_cases hc : oldList.any (fun e => e.targetId = t)
    · rw [if_pos hc, updateFirstEdge_map_targetId]
      exact hndOld
    · rw [if_neg hc, List.map_append]
      simp only [List.map_cons, List.map_nil]
      apply List.Nodup.append hndOld (List.nodup_singleton t)
      intro a ha hb
      rw [List.mem_singleton] at hb
      subst hb
      simp only [List.any_eq_true, decide_eq_true_eq] at hc
      rcases List.mem_map.mp ha with ⟨e, he, hte⟩
      exact hc ⟨e, he, hte⟩
  -- get characterizations of the updated maps
  have hgetE' : ∀ k, alistGet (alistSet g.edges s newList) k =
      if k = s then some newList else alistGet g.edges k := by
    intro k
    by_cases hk : k = s
    · subst hk; rw [alistGet_alistSet_self, if_pos rfl]
    · rw [alistGet_alistSet_ne _ _ hk, if_neg hk]
  have hgetR' : ∀ k, alistGet (alistSet g.reverseEdges t newSet) k =
      if k = t then some newSet else alistGet g.reverseEdges k := by
    intro k
    by_cases hk : k = t
    · subst hk; rw [alistGet_alistSet_self, if_pos rfl]
    · rw [alistGet_alistSet_ne _ _ hk, if_neg hk]
  -- hasEdge in the new state dominates hasEdge in g
  have hHEmono : ∀ x v, hasEdgeIn g.edges x v = true →
      hasEdgeIn (alistSet g.edges s newList) x v = true := by
    intro x v hxv
    rcases hasEdgeIn_iff_exists.mp hxv with ⟨l, hl, e, he, hte⟩
    by_cases hx : x = s
    · subst hx
      rw [hl] at holdList
      cases holdList
      apply hasEdgeIn_iff_exists.mpr
      refine ⟨newList, by rw [hgetE' x, if_pos rfl], ?_⟩
      have : oldList.any (fun e => e.targetId = v) = true := by
        simp only [List.any_eq_true, decide_eq_true_eq]
        exact ⟨e, he, hte⟩
      have := hAnyMono v this
      simp only [List.any_eq_true, decide_eq_true_eq] at this
      exact this
    · apply hasEdgeIn_iff_exists.mpr
      exact ⟨l, by rw [hgetE' x, if_neg hx]; exact hl, e, he, hte⟩
  refine ⟨h1, keys_alistSet_nodup _ h2, keys_alistSet_nodup _ h3, h4, h5,
    ?_, ?_, ?_, h9, h10⟩
  · -- edge-map clause
    intro p hp
    rcases (mem_alistSet_iff h2 p).mp hp with hp | ⟨hp, hps⟩
    · subst hp
      refine ⟨hsm, hndNew, ?_⟩
      intro e' he'
      constructor
      · rcases hmemNew e' he' with ⟨e, he, hte⟩ | hte
        · rw [hte]; exact (hallOld e he).1
        · rw [hte]; exact htm
      · simp only
        rw [hgetR']
        by_cases hc : e'.targetId = t
        · rw [if_pos hc]
          simp only [Option.getD_some]
          rw [hnewSet2]
          exact mem_setAdd.mpr (Or.inr rfl)
        · rw [if_neg hc]
          rcases hmemNew e' he' with ⟨e, he, hte⟩ | hte
          · have := (hallOld e he).2
            rw [← hte] at this
            exact this
          · exact absurd hte hc
    · obtain ⟨hm, hnd, hall⟩ := h6 p hp
      refine ⟨hm, hnd, ?_⟩
      intro e he
      obtain ⟨htn, hr⟩ := hall e he
      refine ⟨htn, ?_⟩
      simp only
      rw [hgetR']
      by_cases hc : e.targetId = t
      · rw [if_pos hc]
        simp only [Option.getD_some]
        rw [hnewSet2]
        rw [hc, hgsD] at hr
        exact mem_setAdd.mpr (Or.inl hr)
      · rw [if_neg hc]
        exact hr
  · -- reverse-map clause
    intro p hp
    rcases (mem_alistSet_iff h3 p).mp hp with hp | ⟨hp, hpt⟩
    · subst hp
      refine ⟨htm, by rw [hnewSet2]; exact setAdd_nodup hndSet, ?_⟩
      intro x hx
      rw [hnewSet2] at hx
      rw [hasEdge_eq_hasEdgeIn]
      simp only
      rcases mem_setAdd.mp hx with hx | hx
      · by_cases hxs : x = s
        · subst hxs
          apply hasEdgeIn_iff_exists.mpr
          refine ⟨newList, by rw [hgetE' x, if_pos rfl], ?_⟩
          have := hAnyT
          simp only [List.any_eq_true, decide_eq_true_eq] at this
          exact this
        · apply hHEmono x t
          rw [← hasEdge_eq_hasEdgeIn]
          exact hallSet x hx
      · subst hx
        apply hasEdgeIn_iff_exists.mpr
        refine ⟨newList, by rw [hgetE' x, if_pos rfl], ?_⟩
        have := hAnyT
        simp only [List.any_eq_true, decide_eq_true_eq] at this
        exact this
    · obtain ⟨hm, hnd, hall⟩ := h7 p hp
      refine ⟨hm, hnd, ?_⟩
      intro x hx
      rw [hasEdge_eq_hasEdgeIn]
      simp only
      apply hHEmono x p.1
      rw [← hasEdge_eq_hasEdgeIn]
      exact hall x hx
  · -- nodes have adjacency entries
    intro v hv
    obtain ⟨he, hr⟩ := h8 v hv
    exact ⟨(mem_keys_alistSet _ _ _ _).mpr (Or.inl he),
      (mem_keys_alistSet _ _ _ _).mpr (Or.inl hr)⟩

-- ===== WF preservation: removeNode =====

theorem modifyEntry_get {α : Type} (m : List (String × α)) (k : String) (f : α → α)
    (k' : String) :
    alistGet (modifyEntry m k f) k' =
      if k' = k then (alistGet m k).map f else alistGet m k' := by
  unfold modifyEntry
  cases hm : alistGet m k with
  | none =>
    by_cases hk : k' = k
    · rw [if_pos hk, hk, hm]
      rfl
    · rw [if_neg hk]
  | some v =>
    by_cases hk : k' = k
    · rw [if_pos hk, hk, alistGet_alistSet_self]
      rfl
    · rw [if_neg hk, alistGet_alistSet_ne _ _ hk]

theorem modifyEntry_keys {α : Type} (m : List (String × α)) (k : String) (f : α → α) :
    keys (modifyEntry m k f) = keys m := by
  unfold modifyEntry
  cases hm : alistGet m k with
  | none => rfl
  | some v => exact keys_alistSet_of_mem _ (mem_keys_of_get hm)

theorem foldl_modify_keys {α β : Type} (key : β → String) (f : α → α)
    (xs : List β) (m : List (String × α)) :
    keys (xs.foldl (fun acc x => modifyEntry acc (key x) f) m) = keys m := by
  induction xs generalizing m with
  | nil => rfl
  | cons x xs ih =>
    rw [List.foldl_cons, ih, modifyEntry_keys]

theorem foldl_modify_get {α β : Type} (key : β → String) (f : α → α)
    (hf : ∀ a, f (f a) = f a) (xs : List β) (m : List (String × α)) (k : String) :
    alistGet (xs.foldl (fun acc x => modifyEntry acc (key x) f) m) k =
      if k ∈ xs.map key then (alistGet m k).map f else alistGet m k := by
  induction xs generalizing m with
  | nil => simp
  | cons x xs ih =>
    rw [List.foldl_cons, ih, modifyEntry_get]
    by_cases hk : k = key x
    · by_cases hmem : k ∈ xs.map key
      · rw [if_pos hmem, if_pos hk,
          if_pos (by rw [List.map_cons, hk]; exact List.mem_cons_self _ _), ← hk]
        cases alistGet m k with
        | none => rfl
        | some v => simp [hf]
      · rw [if_neg hmem, if_pos hk,
          if_pos (by rw [List.map_cons, hk]; exact List.mem_cons_self _ _), ← hk]
    · rw [if_neg hk]
      by_cases hmem : k ∈ xs.map key
      · rw [if_pos hmem, if_pos (by rw [List.map_cons]; exact List.mem_cons_of_mem _ hmem)]
      · rw [if_neg hmem, if_neg (by
          rw [List.map_cons]
          intro hc
          rcases List.mem_cons.mp hc with hc | hc
          · exact hk hc
          · exact hmem hc)]

theorem filter_idem {α : Type} (p : α → Bool) (l : List α) :
    (l.filter p).filter p = l.filter p :=
  List.filter_eq_self.mpr (fun a ha => (List.mem_filter.mp ha).2)

/-- The outgoing list read by `removeNode` (empty when absent). -/
def outgoingOf (g : MemoryGraph) (id : String) : List GraphEdge :=
  (alistGet g.edges id).getD []

/-- The reverse index after the first loop of `removeNode`. -/
def rev1Of (g : MemoryGraph) (id : String) : List (String × List String) :=
  (outgoingOf g id).foldl
    (fun rev e => modifyEntry rev e.targetId (fun s => s.filter (fun x => x ≠ id)))
    g.reverseEdges

/-- The incoming-source list read by `removeNode` after the first loop. -/
def incomingOf (g : MemoryGraph) (id : String) : List String :=
  (alistGet (rev1Of g id) id).getD []

/-- The edge map after both loops and the deletion of `id`. -/
def edges2Of (g : MemoryGraph) (id : String) : List (String × List GraphEdge) :=
  (incomingOf g id).foldl
    (fun ed srcId => modifyEntry ed srcId (fun l => l.filter (fun e => e.targetId ≠ id)))
    (alistDelete g.edges id)

theorem removeNode_of_has (g : MemoryGraph) (id : String)
    (hid : alistHas g.nodes id = true) :
    removeNode g id =
      { nodes := alistDelete g.nodes id
        edges := edges2Of g id
        reverseEdges := alistDelete (rev1Of g id) id
        pageRanks := alistDelete g.pageRanks id
        communities := alistDelete g.communities id
        dirty := true } := by
  unfold removeNode
  rw [if_neg (by rw [hid]; exact Bool.noConfusion)]
  rfl

theorem removeNode_noop {g : MemoryGraph} {id : String}
    (h : alistHas g.nodes id = false) : removeNode g id = g := by
  unfold removeNode
  rw [if_pos h]

theorem rev1Of_get (g : MemoryGraph) (id : String) (k : String) :
    alistGet (rev1Of g id) k =
      if k ∈ (outgoingOf g id).map (fun e => e.targetId)
      then (alistGet g.reverseEdges k).map (fun s => s.filter (fun x => x ≠ id))
      else alistGet g.reverseEdges k := by
  unfold rev1Of
  exact foldl_modify_get _ _ (fun a => filter_idem _ a) _ _ _

theorem edges2Of_get (g : MemoryGraph) (id : String) (k : String) :
    alistGet (edges2Of g id) k =
      if k ∈ incomingOf g id
      then (alistGet (alistDelete g.edges id) k).map
        (fun l => l.filter (fun e => e.targetId ≠ id))
      else alistGet (alistDelete g.edges id) k := by
  unfold edges2Of
  have := foldl_modify_get (fun s : String => s)
    (fun l : List GraphEdge => l.filter (fun e => e.targetId ≠ id))
    (fun a => filter_idem _ a) (incomingOf g id) (alistDelete g.edges id) k
  rw [List.map_id'] at this
  exact this

theorem keys_edges2Of (g : MemoryGraph) (id : String) :
    keys (edges2Of g id) = keys (alistDelete g.edges id) := by
  unfold edges2Of
  exact foldl_modify_keys _ _ _ _

theorem keys_rev1Of (g : MemoryGraph) (id : String) :
    keys (rev1Of g id) = keys g.reverseEdges := by
  unfold rev1Of
  exact foldl_modify_keys _ _ _ _

theorem wf_removeNode {g : MemoryGraph} (h : WF g) (id : String) :
    WF (removeNode g id) := by
  cases hid : alistHas g.nodes id with
  | false => rw [removeNode_noop hid]; exact h
  | true =>
  rw [removeNode_of_has g id hid]
  obtain ⟨h1, h2, h3, h4, h5, h6, h7, h8, h9, h10⟩ := h
  have hidm : id ∈ keys g.nodes := (alistHas_true_iff _ _).mp hid
  obtain ⟨outL, houtL⟩ :=
    Option.isSome_iff_exists.mp ((mem_keys_iff_isSome _ _).mp (h8 id hidm).1)
  obtain ⟨revS, hrevS⟩ :=
    Option.isSome_iff_exists.mp ((mem_keys_iff_isSome _ _).mp (h8 id hidm).2)
  obtain ⟨-, hndOut, hallOut⟩ := h6 (id, outL) (alistGet_mem houtL)
  obtain ⟨-, hndRev, hallRev⟩ := h7 (id, revS) (alistGet_mem hrevS)
  have houtgoing : outgoingOf g id = outL := by
    unfold outgoingOf; rw [houtL]; rfl
  have hincD : incomingOf g id =
      if id ∈ outL.map (fun e => e.targetId)
      then revS.filter (fun x => x ≠ id) else revS := by
    unfold incomingOf
    rw [rev1Of_get, houtgoing, hrevS]
    by_cases hc : id ∈ outL.map (fun e => e.targetId)
    · rw [if_pos hc, if_pos hc]; rfl
    · rw [if_neg hc, if_neg hc]; rfl
  have hInc1 : ∀ x, x ∈ incomingOf g id → x ∈ revS := by
    intro x hx
    rw [hincD] at hx
    by_cases hc : id ∈ outL.map (fun e => e.targetId)
    · rw [if_pos hc] at hx; exact (List.mem_filter.mp hx).1
    · rw [if_neg hc] at hx; exact hx
  have hInc2 : ∀ x, x ∈ revS → x ≠ id → x ∈ incomingOf g id := by
    intro x hx hxid
    rw [hincD]
    by_cases hc : id ∈ outL.map (fun e => e.targetId)
    · rw [if_pos hc]
      exact List.mem_filter.mpr ⟨hx, by simpa using hxid⟩
    · rw [if_neg hc]; exact hx
  have hGetE2 : ∀ k, alistGet (edges2Of g id) k =
      if k = id then none
      else if k ∈ incomingOf g id
        then (alistGet g.edges k).map (fun l => l.filter (fun e => e.targetId ≠ id))
        else alistGet g.edges k := by
    intro k
    rw [edges2Of_get, alistGet_alistDelete]
    by_cases hk : k = id
    · rw [if_pos hk, if_pos hk]
      by_cases hc : k ∈ incomingOf g id
      · rw [if_pos hc]; rfl
      · rw [if_neg hc]
    · rw [if_neg hk, if_neg hk]
  have hGetR2 : ∀ k, alistGet (alistDelete (rev1Of g id) id) k =
      if k = id then none
      else if k ∈ outL.map (fun e => e.targetId)
        then (alistGet g.reverseEdges k).map (fun s => s.filter (fun x => x ≠ id))
        else alistGet g.reverseEdges k := by
    intro k
    rw [alistGet_alistDelete, rev1Of_get, houtgoing]
  have hndE2 : (keys (edges2Of g id)).Nodup := by
    rw [keys_edges2Of]
    exact keys_alistDelete_nodup _ h2
  have hndR2 : (keys (alistDelete (rev1Of g id) id)).Nodup := by
    apply keys_alistDelete_nodup
    rw [keys_rev1Of]
    exact h3
  refine ⟨keys_alistDelete_nodup _ h1, hndE2, hndR2,
    keys_alistDelete_nodup _ h4, keys_alistDelete_nodup _ h5, ?_, ?_, ?_, ?_, ?_⟩
  · -- edge-map clause
    intro p hp
    have hgetp : alistGet (edges2Of g id) p.1 = some p.2 :=
      alistGet_of_mem_nodup hndE2 hp
    rw [hGetE2] at hgetp
    by_cases hk : p.1 = id
    · rw [if_pos hk] at hgetp
      exact absurd hgetp (by simp)
    rw [if_neg hk] at hgetp
    by_cases hc : p.1 ∈ incomingOf g id
    · rw [if_pos hc] at hgetp
      rcases Option.map_eq_some'.mp hgetp with ⟨lorig, hlorig, hfilter⟩
      obtain ⟨hm, hnd, hall⟩ := h6 (p.1, lorig) (alistGet_mem hlorig)
      refine ⟨(mem_keys_alistDelete _ _ _).mpr ⟨hm, hk⟩, ?_, ?_⟩
      · rw [← hfilter]
        exact ((List.filter_sublist lorig).map (fun e => e.targetId)).nodup hnd
      · intro e he
        rw [← hfilter] at he
        have hmemf := List.mem_filter.mp he
        have heid : e.targetId ≠ id := by simpa using hmemf.2
        obtain ⟨htn, hr⟩ := hall e hmemf.1
        refine ⟨(mem_keys_alistDelete _ _ _).mpr ⟨htn, heid⟩, ?_⟩
        rw [hGetR2, if_neg heid]
        by_cases hcc : e.targetId ∈ outL.map (fun e => e.targetId)
        · rw [if_pos hcc]
          cases hrs : alistGet g.reverseEdges e.targetId with
          | none => rw [hrs] at hr; simp at hr
          | some rsv =>
            rw [hrs] at hr
            simp only [Option.getD_some] at hr
            exact List.mem_filter.mpr ⟨hr, decide_eq_true hk⟩
        · rw [if_neg hcc]
          exact hr
    · rw [if_neg hc] at hgetp
      obtain ⟨hm, hnd, hall⟩ := h6 (p.1, p.2) (alistGet_mem hgetp)
      refine ⟨(mem_keys_alistDelete _ _ _).mpr ⟨hm, hk⟩, hnd, ?_⟩
      intro e he
      obtain ⟨htn, hr⟩ := hall e he
      have heid : e.targetId ≠ id := by
        intro hcontra
        rw [hcontra, hrevS] at hr
        simp only [Option.getD_some] at hr
        exact hc (hInc2 p.1 hr hk)
      refine ⟨(mem_keys_alistDelete _ _ _).mpr ⟨htn, heid⟩, ?_⟩
      rw [hGetR2, if_neg heid]
      by_cases hcc : e.targetId ∈ outL.map (fun e => e.targetId)
      · rw [if_pos hcc]
        cases hrs : alistGet g.reverseEdges e.targetId with
        | none => rw [hrs] at hr; simp at hr
        | some rsv =>
          rw [hrs] at hr
          simp only [Option.getD_some] at hr
          exact List.mem_filter.mpr ⟨hr, decide_eq_true hk⟩
      · rw [if_neg hcc]
        exact hr
  · -- reverse-map clause
    intro p hp
    have hgetp : alistGet (alistDelete (rev1Of g id) id) p.1 = some p.2 :=
      alistGet_of_mem_nodup hndR2 hp
    rw [hGetR2] at hgetp
    by_cases hk : p.1 = id
    · rw [if_pos hk] at hgetp
      exact absurd hgetp (by simp)
    rw [if_neg hk] at hgetp
    -- in both branches we find the original reverse set
    have hmain : ∃ rsorig, alistGet g.reverseEdges p.1 = some rsorig ∧
        (p.2 = rsorig.filter (fun x => x ≠ id) ∨
          (p.2 = rsorig ∧ hasEdge g id p.1 = false)) := by
      by_cases hcc : p.1 ∈ outL.map (fun e => e.targetId)
      · rw [if_pos hcc] at hgetp
        rcases Option.map_eq_some'.mp hgetp with ⟨rsorig, hrs, hfil⟩
        exact ⟨rsorig, hrs, Or.inl hfil.symm⟩
      · rw [if_neg hcc] at hgetp
        refine ⟨p.2, hgetp, Or.inr ⟨rfl, ?_⟩⟩
        unfold hasEdge
        rw [houtL]
        apply Bool.eq_false_iff.mpr
        intro hany
        rw [List.any_eq_true] at hany
        rcases hany with ⟨e, he, hte⟩
        rw [decide_eq_true_eq] at hte
        exact hcc (List.mem_map.mpr ⟨e, he, hte⟩)
    rcases hmain with ⟨rsorig, hrs, hshape⟩
    obtain ⟨hm, hnd, hall⟩ := h7 (p.1, rsorig) (alistGet_mem hrs)
    have hsub : ∀ x ∈ p.2, x ∈ rsorig := by
      intro x hx
      rcases hshape with hsh | ⟨hsh, -⟩
      · rw [hsh] at hx; exact (List.mem_filter.mp hx).1
      · rw [hsh] at hx; exact hx
    have hxid : ∀ x ∈ p.2, x ≠ id := by
      intro x hx
      rcases hshape with hsh | ⟨hsh, hne⟩
      · rw [hsh] at hx
        simpa using (List.mem_filter.mp hx).2
      · intro hcontra
        rw [hsh] at hx
        rw [hcontra] at hx
        have := hall id hx
        rw [this] at hne
        exact Bool.noConfusion hne
    refine ⟨(mem_keys_alistDelete _ _ _).mpr ⟨hm, hk⟩, ?_, ?_⟩
    · rcases hshape with hsh | ⟨hsh, -⟩
      · rw [hsh]; exact hnd.filter _
      · rw [hsh]; exact hnd
    · intro x hx
      have hxrs := hsub x hx
      have hxi := hxid x hx
      have hedge := hall x hxrs
      rcases hasEdge_iff_exists.mp hedge with ⟨lx, hlx, e, he, hte⟩
      rw [hasEdge_eq_hasEdgeIn]
      apply hasEdgeIn_iff_exists.mpr
      have hteid : e.targetId ≠ id := by rw [hte]; exact hk
      by_cases hxin : x ∈ incomingOf g id
      · refine ⟨lx.filter (fun e => e.targetId ≠ id), ?_, e, ?_, hte⟩
        · simp only
          rw [hGetE2, if_neg hxi, if_pos hxin, hlx]
          rfl
        · exact List.mem_filter.mpr ⟨he, by simpa using hteid⟩
      · refine ⟨lx, ?_, e, he, hte⟩
        simp only
        rw [hGetE2, if_neg hxi, if_neg hxin]
        exact hlx
  · -- nodes have adjacency entries
    intro v hv
    obtain ⟨hvn, hvi⟩ := (mem_keys_alistDelete _ _ _).mp hv
    obtain ⟨he, hr⟩ := h8 v hvn
    constructor
    · rw [keys_edges2Of]
      exact (mem_keys_alistDelete _ _ _).mpr ⟨he, hvi⟩
    · apply (mem_keys_alistDelete _ _ _).mpr
      rw [keys_rev1Of]
      exact ⟨hr, hvi⟩
  · intro v hv
    obtain ⟨hvn, hvi⟩ := (mem_keys_alistDelete _ _ _).mp hv
    exact (mem_keys_alistDelete _ _ _).mpr ⟨h9 v hvn, hvi⟩
  · intro v hv
    obtain ⟨hvn, hvi⟩ := (mem_keys_alistDelete _ _ _).mp hv
    exact (mem_keys_alistDelete _ _ _).mpr ⟨h10 v hvn, hvi⟩

-- ===== WF preservation: buildFromBackend and sequences =====

theorem foldl_preserve {α β : Type} (P : α → Prop) (f : α → β → α)
    (hf : ∀ a b, P a → P (f a b)) :
    ∀ (l : List β) (a : α), P a → P (l.foldl f a) := by
  intro l
  induction l with
  | nil => intro a ha; exact ha
  | cons x xs ih =>
    intro a ha
    rw [List.foldl_cons]
    exact ih _ (hf a x ha)

theorem wf_setDirty {g : MemoryGraph} (h : WF g) (b : Bool) :
    WF { g with dirty := b } := h

theorem wf_buildFromBackend (cfg : MemoryGraphConfig) {g : MemoryGraph}
    (h : WF g) (entries : List MemoryEntry) :
    WF (buildFromBackend cfg g entries) := by
  unfold buildFromBackend
  apply wf_setDirty
  apply foldl_preserve WF _ ?_ entries
  · apply foldl_preserve WF (addNode cfg) (fun a b ha => wf_addNode cfg ha b) entries
    exact h
  · intro a entry ha
    exact foldl_preserve WF _
      (fun a' refId ha' => wf_addEdge ha' entry.id refId EdgeType.reference 1)
      entry.references a ha

theorem wf_applyOp (cfg : MemoryGraphConfig) {g : MemoryGraph} (h : WF g)
    (op : Op) : WF (applyOp cfg g op) := by
  cases op with
  | opAddNode entry => exact wf_addNode cfg h entry
  | opAddEdge s t ty w => exact wf_addEdge h s t ty w
  | opRemoveNode id => exact wf_removeNode h id
  | opBuild entries => exact wf_buildFromBackend cfg h entries

/-- Every state reached from a fresh instance by a sequence of structural
operations is well-formed. -/
theorem wf_runOps (cfg : MemoryGraphConfig) (ops : List Op) :
    WF (runOps cfg ops) :=
  foldl_preserve WF (applyOp cfg) (fun a b ha => wf_applyOp cfg ha b) ops
    emptyGraph wf_empty

-- ===== PageRank engine =====

/-- Iteration order of `this.nodes.keys()`. -/
def nodeKeys (g : MemoryGraph) : List String := keys g.nodes

/-- `this.pageRanks.get(s) || 0` (a stored rank of `0` also yields `0`). -/
def rankOf (ranks : List (String × ℚ)) (s : String) : ℚ :=
  (alistGet ranks s).getD 0

/-- `this.edges.get(sourceId)?.length || 1`. -/
def outDegreeOf (g : MemoryGraph) (s : String) : ℕ :=
  match alistGet g.edges s with
  | some l => if l.length = 0 then 1 else l.length
  | none => 1

/-- The dangling-node list: nodes whose outgoing list is absent or empty. -/
def danglingOf (g : MemoryGraph) : List String :=
  (nodeKeys g).filter (fun v => ((alistGet g.edges v).getD []).isEmpty)

/-- The per-node incoming sum of one iteration:
Σ over recorded sources of `rank(s) / outDegree(s)`. -/
def incomingSumOf (g : MemoryGraph) (ranks : List (String × ℚ)) (v : String) : ℚ :=
  match alistGet g.reverseEdges v with
  | some srcs => (srcs.map (fun s => rankOf ranks s / (outDegreeOf g s : ℚ))).sum
  | none => 0

/-- One power iteration: the fresh `newRanks` table (in node order) and the
maximum absolute per-node change. -/
def pageRankStep (cfg : MemoryGraphConfig) (g : MemoryGraph)
    (dangling : List String) (ranks : List (String × ℚ)) :
    List (String × ℚ) × ℚ :=
  let N : ℚ := (g.nodes.length : ℚ)
  let d := cfg.pageRankDamping
  let danglingSum := (dangling.map (rankOf ranks)).sum
  let newRanks := (nodeKeys g).map (fun v =>
    (v, (1 - d) / N + d * (incomingSumOf g ranks v + danglingSum / N)))
  let maxDelta := (newRanks.map (fun p => |p.2 - rankOf ranks p.1|)).foldl max 0
  (newRanks, maxDelta)

/-- The bounded iteration loop: runs up to `fuel` passes, stopping early when
the maximum change drops below the convergence threshold; returns the final
table and the number of passes performed. -/
def pageRankLoop (cfg : MemoryGraphConfig) (g : MemoryGraph)
    (dangling : List String) :
    ℕ → List (String × ℚ) → ℕ → List (String × ℚ) × ℕ
  | 0, ranks, iters => (ranks, iters)
  | fuel + 1, ranks, iters =>
    let sr := pageRankStep cfg g dangling ranks
    if sr.2 < cfg.pageRankConvergence then (sr.1, iters + 1)
    else pageRankLoop cfg g dangling fuel sr.1 (iters + 1)

/-- `computePageRank()`: returns the updated state, the returned rank table,
and the iteration count reported by the lifecycle notification. -/
def computePageRank (cfg : MemoryGraphConfig) (g : MemoryGraph) :
    MemoryGraph × List (String × ℚ) × ℕ :=
  if g.nodes.length = 0 then
    ({ g with dirty := false }, [], 0)
  else
    let initRanks := (nodeKeys g).foldl
      (fun r v => alistSet r v (1 / (g.nodes.length : ℚ))) g.pageRanks
    let res := pageRankLoop cfg g (danglingOf g) cfg.pageRankIterations initRanks 0
    ({ g with pageRanks := res.1, dirty := false }, res.1, res.2)

/-- The sum of the ranks of all current nodes in a table. -/
def sumRanks (g : MemoryGraph) (ranks : List (String × ℚ)) : ℚ :=
  ((nodeKeys g).map (rankOf ranks)).sum

-- ===== PageRank sum lemmas =====

theorem alistGet_foldl_set_const (l : List String) (m : List (String × ℚ)) (c : ℚ)
    (v : String) :
    alistGet (l.foldl (fun r x => alistSet r x c) m) v =
      if v ∈ l then some c else alistGet m v := by
  induction l generalizing m with
  | nil => simp
  | cons x xs ih =>
    rw [List.foldl_cons, ih]
    by_cases hv : v ∈ xs
    · rw [if_pos hv, if_pos (List.mem_cons_of_mem _ hv)]
    · rw [if_neg hv]
      by_cases hvx : v = x
      · rw [hvx, alistGet_alistSet_self, if_pos (List.mem_cons_self _ _)]
      · rw [alistGet_alistSet_ne _ _ hvx, if_neg (by
          intro hc
          rcases List.mem_cons.mp hc with hc | hc
          · exact hvx hc
          · exact hv hc)]

theorem alistGet_map_pair (l : List String) (f : String → ℚ) (v : String) :
    alistGet (l.map (fun x => (x, f x))) v =
      if v ∈ l then some (f v) else none := by
  induction l with
  | nil => simp [alistGet_nil]
  | cons x xs ih =>
    rw [List.map_cons, alistGet_cons]
    by_cases hx : x = v
    · simp [hx]
    · simp only [hx, if_neg, not_false_iff]
      rw [ih]
      by_cases hv : v ∈ xs
      · rw [if_pos hv, if_pos (List.mem_cons_of_mem _ hv)]
      · rw [if_neg hv, if_neg (by
          intro hc
          rcases List.mem_cons.mp hc with hc | hc
          · exact hx hc.symm
          · exact hv hc)]

theorem sum_map_filter {α : Type} (p : α → Bool) (f : α → ℚ) (l : List α) :
    ((l.filter p).map f).sum = (l.map (fun x => if p x then f x else 0)).sum := by
  induction l with
  | nil => rfl
  | cons x xs ih =>
    rw [List.filter_cons]
    by_cases hp : p x
    · rw [if_pos hp, List.map_cons, List.sum_cons, ih, List.map_cons,
        List.sum_cons, if_pos hp]
    · rw [if_neg hp, ih, List.map_cons, List.sum_cons, if_neg hp, zero_add]

theorem sum_map_add {α : Type} (f h : α → ℚ) (l : List α) :
    (l.map f).sum + (l.map h).sum = (l.map (fun x => f x + h x)).sum := by
  induction l with
  | nil => simp
  | cons x xs ih =>
    simp only [List.map_cons, List.sum_cons, ← ih]
    ring

theorem sum_map_const {α : Type} (c : ℚ) (l : List α) :
    (l.map (fun _ => c)).sum = (l.length : ℚ) * c := by
  induction l with
  | nil => simp
  | cons x xs ih =>
    rw [List.map_cons, List.sum_cons, ih, List.length_cons]
    push_cast
    ring

theorem sum_map_mul_left {α : Type} (c : ℚ) (f : α → ℚ) (l : List α) :
    (l.map (fun x => c * f x)).sum = c * (l.map f).sum := by
  induction l with
  | nil => simp
  | cons x xs ih =>
    rw [List.map_cons, List.sum_cons, ih, List.map_cons, List.sum_cons]
    ring

/-- Row sums of the rank-mass matrix: summing each node's incoming rank mass
over all nodes yields the rank of every non-dangling node once. -/
theorem sum_incoming {g : MemoryGraph} (hwf : WF g) (ranks : List (String × ℚ)) :
    ((nodeKeys g).map (fun v => incomingSumOf g ranks v)).sum =
      ((nodeKeys g).map (fun s =>
        if ((alistGet g.edges s).getD []).isEmpty then 0
        else rankOf ranks s)).sum := by
  have hndK : (nodeKeys g).Nodup := hwf.1
  have hreviff := WF.rev_iff_hasEdge hwf
  obtain ⟨h1, h2, h3, h4, h5, h6, h7, h8, h9, h10⟩ := hwf
  have hsK : ∀ s v : String, hasEdge g s v = true → s ∈ nodeKeys g := by
    intro s v hs
    rcases hasEdge_iff_exists.mp hs with ⟨ls, hls, -⟩
    exact (h6 (s, ls) (alistGet_mem hls)).1
  rw [← List.sum_toFinset _ hndK, ← List.sum_toFinset _ hndK]
  have hstep1 : ∀ v ∈ (nodeKeys g).toFinset, incomingSumOf g ranks v =
      ∑ s ∈ (nodeKeys g).toFinset.filter (fun s => hasEdge g s v = true),
        (fun s => rankOf ranks s / (outDegreeOf g s : ℚ)) s := by
    intro v hv
    rw [List.mem_toFinset] at hv
    obtain ⟨srcs, hsrcs⟩ :=
      Option.isSome_iff_exists.mp ((mem_keys_iff_isSome _ _).mp (h8 v hv).2)
    obtain ⟨-, hndS, -⟩ := h7 (v, srcs) (alistGet_mem hsrcs)
    have hSfin : srcs.toFinset =
        (nodeKeys g).toFinset.filter (fun s => hasEdge g s v = true) := by
      apply Finset.ext
      intro s
      rw [List.mem_toFinset, Finset.mem_filter, List.mem_toFinset]
      have hmem : s ∈ srcs ↔ hasEdge g s v = true := by
        have := hreviff s v
        rw [hsrcs] at this
        simpa using this
      constructor
      · intro hs
        exact ⟨hsK s v (hmem.mp hs), hmem.mp hs⟩
      · rintro ⟨-, hs⟩
        exact hmem.mpr hs
    unfold incomingSumOf
    rw [hsrcs]
    show (srcs.map (fun s => rankOf ranks s / (outDegreeOf g s : ℚ))).sum = _
    rw [← List.sum_toFinset _ hndS, hSfin]
  rw [Finset.sum_congr rfl hstep1]
  have hswap : ∑ v ∈ (nodeKeys g).toFinset,
      ∑ s ∈ (nodeKeys g).toFinset.filter (fun s => hasEdge g s v = true),
        rankOf ranks s / (outDegreeOf g s : ℚ)
      = ∑ s ∈ (nodeKeys g).toFinset,
        ∑ v ∈ (nodeKeys g).toFinset.filter (fun v => hasEdge g s v = true),
          rankOf ranks s / (outDegreeOf g s : ℚ) :=
    calc ∑ v ∈ (nodeKeys g).toFinset,
        ∑ s ∈ (nodeKeys g).toFinset.filter (fun s => hasEdge g s v = true),
          rankOf ranks s / (outDegreeOf g s : ℚ)
        = ∑ v ∈ (nodeKeys g).toFinset, ∑ s ∈ (nodeKeys g).toFinset,
            if hasEdge g s v = true then rankOf ranks s / (outDegreeOf g s : ℚ)
            else 0 :=
          Finset.sum_congr rfl (fun v _ => Finset.sum_filter _ _)
      _ = ∑ s ∈ (nodeKeys g).toFinset, ∑ v ∈ (nodeKeys g).toFinset,
            if hasEdge g s v = true then rankOf ranks s / (outDegreeOf g s : ℚ)
            else 0 := Finset.sum_comm
      _ = ∑ s ∈ (nodeKeys g).toFinset,
            ∑ v ∈ (nodeKeys g).toFinset.filter (fun v => hasEdge g s v = true),
              rankOf ranks s / (outDegreeOf g s : ℚ) :=
          Finset.sum_congr rfl (fun s _ => (Finset.sum_filter _ _).symm)
  rw [hswap]
  apply Finset.sum_congr rfl
  intro s hs
  rw [List.mem_toFinset] at hs
  obtain ⟨ls, hls⟩ :=
    Option.isSome_iff_exists.mp ((mem_keys_iff_isSome _ _).mp (h8 s hs).1)
  obtain ⟨-, hndT, hallT⟩ := h6 (s, ls) (alistGet_mem hls)
  have hTfin : (nodeKeys g).toFinset.filter (fun v => hasEdge g s v = true) =
      (ls.map (fun e => e.targetId)).toFinset := by
    apply Finset.ext
    intro v
    rw [Finset.mem_filter, List.mem_toFinset, List.mem_toFinset]
    have hmem : hasEdge g s v = true ↔ v ∈ ls.map (fun e => e.targetId) := by
      unfold hasEdge
      rw [hls]
      simp only [List.any_eq_true, decide_eq_true_eq, List.mem_map]
    constructor
    · rintro ⟨-, hv⟩
      exact hmem.mp hv
    · intro hv
      rcases List.mem_map.mp hv with ⟨e, he, hte⟩
      exact ⟨hte ▸ (hallT e he).1, hmem.mpr hv⟩
  rw [hTfin, Finset.sum_const, List.toFinset_card_of_nodup hndT,
    List.length_map]
  have hdeg : outDegreeOf g s = if ls.length = 0 then 1 else ls.length := by
    unfold outDegreeOf
    rw [hls]
  have hisEmpty : ((alistGet g.edges s).getD []).isEmpty = (ls.length = 0 : Bool) := by
    rw [hls]
    cases ls with
    | nil => rfl
    | cons a l => rfl
  rw [hisEmpty]
  by_cases hlen : ls.length = 0
  · rw [if_pos (by simpa using hlen), hlen]
    simp
  · rw [if_neg (by simpa using hlen), hdeg, if_neg hlen]
    have hne : ((ls.length : ℚ)) ≠ 0 := by
      exact_mod_cast hlen
    rw [nsmul_eq_mul]
    field_simp

theorem map_congr_mem {α β : Type} {l : List α} {f h : α → β}
    (H : ∀ a ∈ l, f a = h a) : l.map f = l.map h := by
  induction l with
  | nil => rfl
  | cons x xs ih =>
    rw [List.map_cons, List.map_cons, H x (List.mem_cons_self _ _),
      ih (fun a ha => H a (List.mem_cons_of_mem _ ha))]

theorem rankOf_map_pair (l : List String) (f : String → ℚ) (v : String) :
    rankOf (l.map (fun x => (x, f x))) v = if v ∈ l then f v else 0 := by
  unfold rankOf
  rw [alistGet_map_pair]
  by_cases hv : v ∈ l
  · rw [if_pos hv, if_pos hv]
    rfl
  · rw [if_neg hv, if_neg hv]
    rfl

/-- One power iteration multiplies the total rank mass `S` into
`(1 − d) + d·S`: the dangling redistribution loses no mass. -/
theorem sumRanks_pageRankStep {g : MemoryGraph} (hwf : WF g)
    (cfg : MemoryGraphConfig) (ranks : List (String × ℚ))
    (hN : g.nodes.length ≠ 0) :
    sumRanks g (pageRankStep cfg g (danglingOf g) ranks).1 =
      (1 - cfg.pageRankDamping) + cfg.pageRankDamping * sumRanks g ranks := by
  have hNQ : (g.nodes.length : ℚ) ≠ 0 := by exact_mod_cast hN
  set d := cfg.pageRankDamping with hd
  set N : ℚ := (g.nodes.length : ℚ) with hNdef
  set DS : ℚ := ((danglingOf g).map (rankOf ranks)).sum with hDS
  have hfst : (pageRankStep cfg g (danglingOf g) ranks).1 =
      (nodeKeys g).map (fun v =>
        (v, (1 - d) / N + d * (incomingSumOf g ranks v + DS / N))) := rfl
  have hlen : ((nodeKeys g).length : ℚ) = N := by
    rw [hNdef]
    norm_cast
    simp [nodeKeys, keys]
  have key : ∀ l : List String,
      ((l.map (fun v => (1 - d) / N + d * (incomingSumOf g ranks v + DS / N))).sum)
        = ((l.length : ℚ)) * ((1 - d) / N) +
          d * ((l.map (fun v => incomingSumOf g ranks v)).sum +
            ((l.length : ℚ)) * (DS / N)) := by
    intro l
    induction l with
    | nil => simp
    | cons x xs ih =>
      simp only [List.map_cons, List.sum_cons, ih, List.length_cons]
      push_cast
      ring
  have hAB : ∀ l : List String,
      (l.map (fun s => if ((alistGet g.edges s).getD []).isEmpty then 0
        else rankOf ranks s)).sum +
      (l.map (fun s => if ((alistGet g.edges s).getD []).isEmpty
        then rankOf ranks s else 0)).sum
        = (l.map (rankOf ranks)).sum := by
    intro l
    induction l with
    | nil => simp
    | cons x xs ih =>
      simp only [List.map_cons, List.sum_cons]
      by_cases hc : ((alistGet g.edges x).getD []).isEmpty
      · rw [if_pos hc, if_pos hc]
        linarith [ih]
      · rw [if_neg hc, if_neg hc]
        linarith [ih]
  have hDSB : DS = ((nodeKeys g).map (fun s =>
      if ((alistGet g.edges s).getD []).isEmpty then rankOf ranks s else 0)).sum := by
    rw [hDS]
    unfold danglingOf
    exact sum_map_filter _ _ _
  unfold sumRanks
  rw [hfst]
  have hcong : ((nodeKeys g).map
        (rankOf ((nodeKeys g).map (fun v =>
          (v, (1 - d) / N + d * (incomingSumOf g ranks v + DS / N)))))).sum
      = ((nodeKeys g).map (fun v =>
          (1 - d) / N + d * (incomingSumOf g ranks v + DS / N))).sum := by
    apply congrArg List.sum
    apply map_congr_mem
    intro a ha
    rw [rankOf_map_pair, if_pos ha]
  rw [hcong, key, hlen, sum_incoming hwf ranks]
  rw [← hAB (nodeKeys g), hDSB]
  field_simp

/-- The loop preserves total mass `1` (any damping factor: `(1−d)+d·1 = 1`). -/
theorem sumRanks_pageRankLoop {g : MemoryGraph} (hwf : WF g)
    (cfg : MemoryGraphConfig) (hN : g.nodes.length ≠ 0) :
    ∀ (fuel : ℕ) (ranks : List (String × ℚ)) (iters : ℕ),
      sumRanks g ranks = 1 →
      sumRanks g (pageRankLoop cfg g (danglingOf g) fuel ranks iters).1 = 1 := by
  intro fuel
  induction fuel with
  | zero => intro ranks iters h; exact h
  | succ fuel ih =>
    intro ranks iters h
    have hstep : sumRanks g (pageRankStep cfg g (danglingOf g) ranks).1 = 1 := by
      rw [sumRanks_pageRankStep hwf cfg ranks hN, h]
      ring
    unfold pageRankLoop
    by_cases hc : (pageRankStep cfg g (danglingOf g) ranks).2 < cfg.pageRankConvergence
    · rw [if_pos hc]
      exact hstep
    · rw [if_neg hc]
      exact ih _ _ hstep

theorem computePageRank_pos (cfg : MemoryGraphConfig) (g : MemoryGraph)
    (hN : g.nodes.length ≠ 0) :
    computePageRank cfg g =
      ({ g with
          pageRanks := (pageRankLoop cfg g (danglingOf g) cfg.pageRankIterations
            ((nodeKeys g).foldl (fun r v => alistSet r v (1 / (g.nodes.length : ℚ)))
              g.pageRanks) 0).1
          dirty := false },
       (pageRankLoop cfg g (danglingOf g) cfg.pageRankIterations
          ((nodeKeys g).foldl (fun r v => alistSet r v (1 / (g.nodes.length : ℚ)))
            g.pageRanks) 0).1,
       (pageRankLoop cfg g (danglingOf g) cfg.pageRankIterations
          ((nodeKeys g).foldl (fun r v => alistSet r v (1 / (g.nodes.length : ℚ)))
            g.pageRanks) 0).2) := by
  unfold computePageRank
  rw [if_neg hN]

theorem computePageRank_zero (cfg : MemoryGraphConfig) (g : MemoryGraph)
    (hN : g.nodes.length = 0) :
    computePageRank cfg g = ({ g with dirty := false }, [], 0) := by
  unfold computePageRank
  rw [if_pos hN]

theorem sumRanks_init (g : MemoryGraph) (hN : g.nodes.length ≠ 0) :
    sumRanks g ((nodeKeys g).foldl
      (fun r v => alistSet r v (1 / (g.nodes.length : ℚ))) g.pageRanks) = 1 := by
  have hNQ : (g.nodes.length : ℚ) ≠ 0 := by exact_mod_cast hN
  unfold sumRanks
  have hcong : (nodeKeys g).map (rankOf ((nodeKeys g).foldl
        (fun r v => alistSet r v (1 / (g.nodes.length : ℚ))) g.pageRanks))
      = (nodeKeys g).map (fun _ => 1 / (g.nodes.length : ℚ)) := by
    apply map_congr_mem
    intro a ha
    unfold rankOf
    rw [alistGet_foldl_set_const, if_pos ha]
    rfl
  rw [hcong, sum_map_const]
  have hlen : ((nodeKeys g).length : ℚ) = (g.nodes.length : ℚ) := by
    norm_cast
    simp [nodeKeys, keys]
  rw [hlen]
  field_simp

-- ===== Claim C1 =====

/-- C1: For every well-formed graph state with node count `N ≥ 1`,
immediately after `computePageRank()` returns, the sum over all current
nodes of their rank in the resulting table equals 1 exactly (the model uses
exact rational arithmetic), regardless of how many nodes are dangling. -/
theorem pageRank_sum_one (cfg : MemoryGraphConfig) (g : MemoryGraph)
    (hwf : WF g) (hN : 1 ≤ g.nodes.length) :
    sumRanks g (computePageRank cfg g).2.1 = 1 := by
  have hN' : g.nodes.length ≠ 0 := by omega
  rw [computePageRank_pos cfg g hN']
  exact sumRanks_pageRankLoop hwf cfg hN' _ _ _ (sumRanks_init g hN')

/-- A plain node record for witness graphs. -/
def wNode (s : String) : GraphNode :=
  { id := s, category := "general", confidence := 1, accessCount := 0,
    createdAt := 0 }

/-- The isolated single-node witness graph. -/
def wg1 : MemoryGraph :=
  { nodes := [("a", wNode "a")]
    edges := [("a", [])]
    reverseEdges := [("a", [])]
    pageRanks := []
    communities := []
    dirty := true }

theorem pageRank_sum_one_witness :
    WF wg1 ∧ 1 ≤ wg1.nodes.length ∧
      sumRanks wg1 (computePageRank DEFAULT_CONFIG wg1).2.1 = 1 :=
  ⟨by decide, by decide,
    pageRank_sum_one DEFAULT_CONFIG wg1 (by decide) (by decide)⟩

-- ===== Claim C2 =====

theorem not_mem_nodes_removeNode (g : MemoryGraph) (X : String) :
    X ∉ keys (removeNode g X).nodes := by
  cases hX : alistHas g.nodes X with
  | false =>
    rw [removeNode_noop hX]
    exact (alistHas_false_iff _ _).mp hX
  | true =>
    rw [removeNode_of_has g X hX]
    intro hc
    exact ((mem_keys_alistDelete _ _ _).mp hc).2 rfl

/-- C2: After every sequence of `addNode` / `addEdge` / `removeNode` /
`buildFromBackend` operations on a fresh instance, the reverse index is
consistent with the forward adjacency (`s` is recorded as an incoming source
of `t` iff `s`'s outgoing list holds an edge to `t`); in particular, after a
subsequent `removeNode X`, no remaining outgoing list contains an edge to
`X` and `X` is absent from the reverse index entirely (neither as a key nor
inside any source set). -/
theorem reverse_index_consistent (cfg : MemoryGraphConfig) (ops : List Op) :
    (∀ s t, s ∈ (alistGet (runOps cfg ops).reverseEdges t).getD [] ↔
      hasEdge (runOps cfg ops) s t = true) ∧
    (∀ X,
      (∀ p ∈ (removeNode (runOps cfg ops) X).edges, ∀ e ∈ p.2, e.targetId ≠ X) ∧
      alistHas (removeNode (runOps cfg ops) X).reverseEdges X = false ∧
      (∀ p ∈ (removeNode (runOps cfg ops) X).reverseEdges, X ∉ p.2)) := by
  have hwf := wf_runOps cfg ops
  constructor
  · intro s t
    exact WF.rev_iff_hasEdge hwf s t
  · intro X
    have hwf' := wf_removeNode hwf X
    have hXout : X ∉ keys (removeNode (runOps cfg ops) X).nodes :=
      not_mem_nodes_removeNode _ X
    obtain ⟨-, -, -, -, -, h6, h7, -, -, -⟩ := hwf'
    refine ⟨?_, ?_, ?_⟩
    · intro p hp e he
      intro hc
      have hmem := ((h6 p hp).2.2 e he).1
      rw [hc] at hmem
      exact hXout hmem
    · apply (alistHas_false_iff _ _).mpr
      intro hc
      obtain ⟨srcs, hsrcs⟩ := Option.isSome_iff_exists.mp
        ((mem_keys_iff_isSome _ _).mp hc)
      exact hXout ((h7 (X, srcs) (alistGet_mem hsrcs)).1)
    · intro p hp hXp
      have hedge := (h7 p hp).2.2 X hXp
      rcases hasEdge_iff_exists.mp hedge with ⟨l, hl, -⟩
      exact hXout ((h6 (X, l) (alistGet_mem hl)).1)

-- ===== Claims C3 / C4 / C6 / C9: addEdge and addNode behaviour =====

theorem filter_updateFirstEdge {l : List GraphEdge} {t : String} {w : ℚ}
    {e0 : GraphEdge}
    (h : l.filter (fun e => e.targetId = t) = [e0]) :
    (updateFirstEdge l t w).filter (fun e => e.targetId = t)
      = [{ e0 with weight := max e0.weight w }] := by
  induction l with
  | nil => simp at h
  | cons e rest ih =>
    rw [List.filter_cons] at h
    by_cases he : e.targetId = t
    · rw [if_pos (decide_eq_true he)] at h
      have he0 : e = e0 ∧ rest.filter (fun e => e.targetId = t) = [] := by
        have := List.cons.injEq e (rest.filter (fun e => e.targetId = t)) e0 []
        rw [this] at h
        exact h
      rw [updateFirstEdge_cons, if_pos he, List.filter_cons,
        if_pos (decide_eq_true he), he0.2, he0.1]
    · rw [if_neg (by simpa using he)] at h
      rw [updateFirstEdge_cons, if_neg he, List.filter_cons,
        if_neg (by simpa using he)]
      exact ih h

theorem hasEdge_addEdge_self (g : MemoryGraph) (s t : String) (ty : EdgeType)
    (w : ℚ) (hs : alistHas g.nodes s = true) (ht : alistHas g.nodes t = true) :
    hasEdge (addEdge g s t ty w) s t = true := by
  rw [addEdge_of_has g s t ty w hs ht, hasEdge_eq_hasEdgeIn]
  apply hasEdgeIn_iff_exists.mpr
  refine ⟨_, alistGet_alistSet_self _ _ _, ?_⟩
  by_cases hc : ((alistGet g.edges s).getD []).any (fun e => e.targetId = t)
  · rw [if_pos hc]
    have hany := updateFirstEdge_any ((alistGet g.edges s).getD []) t t w
    rw [hc] at hany
    rcases List.any_eq_true.mp hany with ⟨e', he', hte'⟩
    rw [decide_eq_true_eq] at hte'
    exact ⟨e', he', hte'⟩
  · rw [if_neg hc]
    exact ⟨{ targetId := t, type := ty, weight := w },
      List.mem_append.mpr (Or.inr (List.mem_singleton.mpr rfl)), rfl⟩

theorem addNode_has_self (cfg : MemoryGraphConfig) (g : MemoryGraph)
    (entry : MemoryEntry) (hcap : g.nodes.length < cfg.maxNodes) :
    alistHas (addNode cfg g entry).nodes entry.id = true := by
  unfold addNode
  rw [if_neg (by rintro ⟨hle, -⟩; omega)]
  apply (alistHas_true_iff _ _).mpr
  exact (mem_keys_alistSet _ _ _ _).mpr (Or.inr rfl)

theorem addNode_has_mono (cfg : MemoryGraphConfig) (g : MemoryGraph)
    (entry : MemoryEntry) (x : String)
    (hx : alistHas g.nodes x = true) :
    alistHas (addNode cfg g entry).nodes x = true := by
  unfold addNode
  by_cases hcap : cfg.maxNodes ≤ g.nodes.length ∧ alistHas g.nodes entry.id = false
  · rw [if_pos hcap]; exact hx
  · rw [if_neg hcap]
    apply (alistHas_true_iff _ _).mpr
    exact (mem_keys_alistSet _ _ _ _).mpr (Or.inl ((alistHas_true_iff _ _).mp hx))

/-- C3: For a graph holding exactly one edge for the ordered pair `(s, t)`,
of type `T0` and weight `w0`, a subsequent `addEdge(s, t, T1, w1)` leaves
exactly one edge for `(s, t)`, whose type is still `T0` and whose weight is
`max w0 w1`; in particular a lower re-insertion weight leaves the stored
weight unchanged, and a higher one raises it. -/
theorem addEdge_max_weight_first_type (g : MemoryGraph) (s t : String)
    (T0 T1 : EdgeType) (w0 w1 : ℚ) (l : List GraphEdge)
    (hs : alistHas g.nodes s = true) (ht : alistHas g.nodes t = true)
    (hl : alistGet g.edges s = some l)
    (hone : l.filter (fun e => e.targetId = t)
      = [{ targetId := t, type := T0, weight := w0 }]) :
    ((alistGet (addEdge g s t T1 w1).edges s).getD []).filter
        (fun e => e.targetId = t)
      = [{ targetId := t, type := T0, weight := max w0 w1 }] ∧
    (w1 ≤ w0 →
      ((alistGet (addEdge g s t T1 w1).edges s).getD []).filter
          (fun e => e.targetId = t)
        = [{ targetId := t, type := T0, weight := w0 }]) ∧
    (w0 ≤ w1 →
      ((alistGet (addEdge g s t T1 w1).edges s).getD []).filter
          (fun e => e.targetId = t)
        = [{ targetId := t, type := T0, weight := w1 }]) := by
  have hany : ((alistGet g.edges s).getD []).any (fun e => e.targetId = t) = true := by
    rw [hl]
    show l.any (fun e => e.targetId = t) = true
    rw [List.any_eq_true]
    have hmem : { targetId := t, type := T0, weight := w0 : GraphEdge } ∈
        l.filter (fun e => e.targetId = t) := by
      rw [hone]; exact List.mem_singleton.mpr rfl
    exact ⟨_, (List.mem_filter.mp hmem).1, (List.mem_filter.mp hmem).2⟩
  have hmain : ((alistGet (addEdge g s t T1 w1).edges s).getD []).filter
      (fun e => e.targetId = t)
      = [{ targetId := t, type := T0, weight := max w0 w1 }] := by
    rw [addEdge_of_has g s t T1 w1 hs ht]
    show ((alistGet (alistSet g.edges s _) s).getD []).filter
        (fun e => e.targetId = t) = _
    rw [alistGet_alistSet_self]
    show (if ((alistGet g.edges s).getD []).any (fun e => e.targetId = t)
        then updateFirstEdge ((alistGet g.edges s).getD []) t w1
        else _).filter (fun e => e.targetId = t) = _
    rw [if_pos hany, hl]
    show (updateFirstEdge l t w1).filter (fun e => e.targetId = t) = _
    rw [filter_updateFirstEdge hone]
  refine ⟨hmain, ?_, ?_⟩
  · intro hle
    rw [hmain, max_eq_left hle]
  · intro hle
    rw [hmain, max_eq_right hle]

/-- Two-node witness graph with a single stored edge `a → b` of weight 2. -/
def wg2 : MemoryGraph :=
  { nodes := [("a", wNode "a"), ("b", wNode "b")]
    edges := [("a", [{ targetId := "b", type := EdgeType.reference, weight := 2 }]),
              ("b", [])]
    reverseEdges := [("a", []), ("b", ["a"])]
    pageRanks := []
    communities := []
    dirty := true }

theorem addEdge_max_weight_first_type_witness :
    alistHas wg2.nodes "a" = true ∧ alistHas wg2.nodes "b" = true ∧
    alistGet wg2.edges "a"
      = some [{ targetId := "b", type := EdgeType.reference, weight := 2 }] ∧
    ([{ targetId := "b", type := EdgeType.reference, weight := 2 : GraphEdge }].filter
        (fun e => e.targetId = "b")
      = [{ targetId := "b", type := EdgeType.reference, weight := 2 }]) ∧
    ((alistGet (addEdge wg2 "a" "b" EdgeType.similar 3).edges "a").getD []).filter
        (fun e => e.targetId = "b")
      = [{ targetId := "b", type := EdgeType.reference, weight := max 2 3 }] :=
  ⟨by decide, by decide, rfl, rfl,
    (addEdge_max_weight_first_type wg2 "a" "b" EdgeType.reference EdgeType.similar
      2 3 _ (by decide) (by decide) rfl rfl).1⟩

/-- C4: an `addEdge` whose source or target is not currently a node is a
silent no-op leaving the whole state (nodes, edges, reverse index, staleness
flag) unchanged; after the missing target is later added as a node, the same
call does create the edge `s → t`. -/
theorem addEdge_missing_endpoint_noop (cfg : MemoryGraphConfig)
    (g : MemoryGraph) (s t : String) (ty : EdgeType) (w : ℚ)
    (entry : MemoryEntry)
    (hmiss : alistHas g.nodes s = false ∨ alistHas g.nodes t = false) :
    addEdge g s t ty w = g ∧
    (alistHas g.nodes s = true → entry.id = t → g.nodes.length < cfg.maxNodes →
      hasEdge (addEdge (addNode cfg g entry) s t ty w) s t = true) := by
  constructor
  · exact addEdge_noop ty w hmiss
  · intro hs hid hcap
    have hs' : alistHas (addNode cfg g entry).nodes s = true :=
      addNode_has_mono cfg g entry s hs
    have ht' : alistHas (addNode cfg g entry).nodes t = true := by
      rw [← hid]
      exact addNode_has_self cfg g entry hcap
    exact hasEdge_addEdge_self _ s t ty w hs' ht'

/-- The would-be node entry for `"b"` used by the C4 witness. -/
def wEntryB : MemoryEntry :=
  { id := "b", metadataCategory := none, metadataConfidence := none,
    accessCount := 0, createdAt := 0, references := [] }

theorem addEdge_missing_endpoint_noop_witness :
    (alistHas wg1.nodes "a" = false ∨ alistHas wg1.nodes "b" = false) ∧
    (addEdge wg1 "a" "b" EdgeType.reference 1 = wg1 ∧
     (alistHas wg1.nodes "a" = true → wEntryB.id = "b" →
       wg1.nodes.length < DEFAULT_CONFIG.maxNodes →
       hasEdge (addEdge (addNode DEFAULT_CONFIG wg1 wEntryB) "a" "b"
         EdgeType.reference 1) "a" "b" = true)) :=
  ⟨Or.inr (by decide),
    addEdge_missing_endpoint_noop DEFAULT_CONFIG wg1 "a" "b"
      EdgeType.reference 1 wEntryB (Or.inr (by decide))⟩

/-- A previously computed (non-stale) witness state holding the edge
`a → b` with weight 1 and a cached rank table. -/
def wg6 : MemoryGraph :=
  { nodes := [("a", wNode "a"), ("b", wNode "b")]
    edges := [("a", [{ targetId := "b", type := EdgeType.reference, weight := 1 }]),
              ("b", [])]
    reverseEdges := [("a", []), ("b", ["a"])]
    pageRanks := [("a", 1), ("b", 1)]
    communities := []
    dirty := false }

/-- C6 counterexample: in a well-formed non-stale state, re-inserting the
already-present edge `a → b` with the same weight (so no actual change to
nodes or edges) still flips the staleness flag to `true`, contradicting the
claim that such a call leaves the flag unchanged. -/
theorem addEdge_noop_still_dirties_cex :
    WF wg6 ∧
    wg6.dirty = false ∧
    hasEdge wg6 "a" "b" = true ∧
    (1 : ℚ) ≤ 1 ∧
    (addEdge wg6 "a" "b" EdgeType.reference 1).dirty = true :=
  ⟨by decide, rfl, by decide, le_refl 1, rfl⟩

/-- C6 amended: an `addEdge` call whose two endpoints both exist always sets
the staleness flag — even when the edge already exists and the new weight is
not greater than the stored one, so the call causes no actual change. -/
theorem addEdge_always_sets_dirty (g : MemoryGraph) (s t : String)
    (ty : EdgeType) (w : ℚ)
    (hs : alistHas g.nodes s = true) (ht : alistHas g.nodes t = true) :
    (addEdge g s t ty w).dirty = true := by
  rw [addEdge_of_has g s t ty w hs ht]

theorem addEdge_always_sets_dirty_witness :
    alistHas wg6.nodes "a" = true ∧ alistHas wg6.nodes "b" = true ∧
    (addEdge wg6 "a" "b" EdgeType.reference 1).dirty = true :=
  ⟨by decide, by decide,
    addEdge_always_sets_dirty wg6 "a" "b" EdgeType.reference 1
      (by decide) (by decide)⟩

-- ===== Claim C9 =====

/-- The C9 counterexample entry: supplied confidence `0` (which lies in
`[0, 1]`) and supplied category `""`. -/
def entry9 : MemoryEntry :=
  { id := "x", metadataCategory := some "", metadataConfidence := some 0,
    accessCount := 0, createdAt := 0, references := [] }

/-- C9 counterexample: `addNode` stores confidence `0.5` even though the
entry supplies the confidence value `0 ∈ [0,1]` (and stores category
`"general"` even though it supplies `""`): JavaScript `x || default`
replaces every falsy supplied value. -/
theorem addNode_zero_confidence_cex :
    entry9.metadataConfidence = some 0 ∧
    (0 : ℚ) ∈ Set.Icc (0 : ℚ) 1 ∧
    entry9.metadataCategory = some "" ∧
    alistGet (addNode DEFAULT_CONFIG emptyGraph entry9).nodes "x"
      = some { id := "x", category := "general", confidence := 1/2,
               accessCount := 0, createdAt := 0 } ∧
    (1 / 2 : ℚ) ≠ 0 := by
  refine ⟨rfl, ?_, rfl, rfl, by norm_num⟩
  constructor <;> norm_num

/-- C9 amended: `addNode` stores the supplied confidence whenever it is
nonzero and the supplied category whenever it is nonempty; the defaults 0.5
and `"general"` are used when the attribute is absent — or when it is the
falsy value `0` resp. `""`. -/
theorem addNode_stores_attributes (cfg : MemoryGraphConfig) (g : MemoryGraph)
    (entry : MemoryEntry)
    (hcap : g.nodes.length < cfg.maxNodes ∨ alistHas g.nodes entry.id = true) :
    ∃ n : GraphNode,
      alistGet (addNode cfg g entry).nodes entry.id = some n ∧
      (∀ c, entry.metadataConfidence = some c → c ≠ 0 → n.confidence = c) ∧
      ((entry.metadataConfidence = none ∨ entry.metadataConfidence = some 0) →
        n.confidence = 1/2) ∧
      (∀ c, entry.metadataCategory = some c → c ≠ "" → n.category = c) ∧
      ((entry.metadataCategory = none ∨ entry.metadataCategory = some "") →
        n.category = "general") ∧
      n.accessCount = entry.accessCount ∧ n.createdAt = entry.createdAt := by
  refine ⟨mkNode entry, ?_, ?_, ?_, ?_, ?_, rfl, rfl⟩
  · unfold addNode
    rw [if_neg (by
      rintro ⟨hle, hhas⟩
      rcases hcap with hcap | hcap
      · omega
      · rw [hcap] at hhas; exact Bool.noConfusion hhas)]
    exact alistGet_alistSet_self _ _ _
  · intro c hc hcne
    unfold mkNode
    rw [hc]
    simp [hcne]
  · rintro (hc | hc)
    · unfold mkNode
      rw [hc]
    · unfold mkNode
      rw [hc]
      simp
  · intro c hc hcne
    unfold mkNode
    rw [hc]
    simp [hcne]
  · rintro (hc | hc)
    · unfold mkNode
      rw [hc]
    · unfold mkNode
      rw [hc]
      simp

/-- The C9 witness entry: nonzero confidence `1`, nonempty category. -/
def entry9w : MemoryEntry :=
  { id := "y", metadataCategory := some "notes", metadataConfidence := some 1,
    accessCount := 3, createdAt := 7, references := [] }

theorem addNode_stores_attributes_witness :
    (emptyGraph.nodes.length < DEFAULT_CONFIG.maxNodes ∨
      alistHas emptyGraph.nodes entry9w.id = true) ∧
    (∃ n : GraphNode,
      alistGet (addNode DEFAULT_CONFIG emptyGraph entry9w).nodes entry9w.id
        = some n ∧
      (∀ c, entry9w.metadataConfidence = some c → c ≠ 0 → n.confidence = c) ∧
      ((entry9w.metadataConfidence = none ∨ entry9w.metadataConfidence = some 0) →
        n.confidence = 1/2) ∧
      (∀ c, entry9w.metadataCategory = some c → c ≠ "" → n.category = c) ∧
      ((entry9w.metadataCategory = none ∨ entry9w.metadataCategory = some "") →
        n.category = "general") ∧
      n.accessCount = entry9w.accessCount ∧ n.createdAt = entry9w.createdAt) :=
  ⟨Or.inl (by decide),
    addNode_stores_attributes DEFAULT_CONFIG emptyGraph entry9w
      (Or.inl (by decide))⟩

-- ===== Claim C5 =====

/-- Modelled from the spec's wording: `incomingSum(v)` is the sum over the
sources `s` that hold an edge `s → v` of `rank(s) / outDegree(s)`, where
`outDegree(s)` is the count of `s`'s outgoing edges. -/
def specIncomingSum (g : MemoryGraph) (ranks : List (String × ℚ)) (v : String) : ℚ :=
  (((nodeKeys g).filter (fun s => hasEdge g s v)).map
    (fun s => rankOf ranks s / ((((alistGet g.edges s).getD []).length : ℚ)))).sum

/-- Replace every stored edge weight (keeping targets and types). -/
def mapWeights (f : GraphEdge → ℚ) (g : MemoryGraph) : MemoryGraph :=
  { g with edges := g.edges.map (fun p =>
      (p.1, p.2.map (fun e => { e with weight := f e }))) }

theorem alistGet_mapValues {α β : Type} (m : List (String × α)) (h : α → β)
    (k : String) :
    alistGet (m.map (fun p => (p.1, h p.2))) k = (alistGet m k).map h := by
  induction m with
  | nil => rfl
  | cons p rest ih =>
    rw [List.map_cons, alistGet_cons, alistGet_cons]
    by_cases hp : p.1 = k
    · rw [if_pos hp, if_pos hp]
      rfl
    · rw [if_neg hp, if_neg hp, ih]

theorem outDegreeOf_mapWeights (f : GraphEdge → ℚ) (g : MemoryGraph) (s : String) :
    outDegreeOf (mapWeights f g) s = outDegreeOf g s := by
  unfold outDegreeOf mapWeights
  rw [alistGet_mapValues]
  cases alistGet g.edges s with
  | none => rfl
  | some l => simp

theorem danglingOf_mapWeights (f : GraphEdge → ℚ) (g : MemoryGraph) :
    danglingOf (mapWeights f g) = danglingOf g := by
  unfold danglingOf
  apply List.filter_congr
  intro v hv
  show ((alistGet (mapWeights f g).edges v).getD []).isEmpty =
    ((alistGet g.edges v).getD []).isEmpty
  unfold mapWeights
  rw [alistGet_mapValues]
  cases alistGet g.edges v with
  | none => rfl
  | some l => cases l <;> rfl

theorem incomingSumOf_mapWeights (f : GraphEdge → ℚ) (g : MemoryGraph)
    (ranks : List (String × ℚ)) (v : String) :
    incomingSumOf (mapWeights f g) ranks v = incomingSumOf g ranks v := by
  unfold incomingSumOf
  rw [show (mapWeights f g).reverseEdges = g.reverseEdges from rfl]
  cases hsr : alistGet g.reverseEdges v with
  | none => rfl
  | some srcs =>
    show (srcs.map (fun s =>
        rankOf ranks s / (outDegreeOf (mapWeights f g) s : ℚ))).sum
      = (srcs.map (fun s => rankOf ranks s / (outDegreeOf g s : ℚ))).sum
    apply congrArg List.sum
    apply map_congr_mem
    intro s _
    rw [outDegreeOf_mapWeights]

theorem pageRankStep_mapWeights (cfg : MemoryGraphConfig) (f : GraphEdge → ℚ)
    (g : MemoryGraph) (dangling : List String) (ranks : List (String × ℚ)) :
    pageRankStep cfg (mapWeights f g) dangling ranks =
      pageRankStep cfg g dangling ranks := by
  unfold pageRankStep
  simp only [incomingSumOf_mapWeights]
  rfl

theorem pageRankLoop_mapWeights (cfg : MemoryGraphConfig) (f : GraphEdge → ℚ)
    (g : MemoryGraph) (dangling : List String) :
    ∀ (fuel : ℕ) (ranks : List (String × ℚ)) (iters : ℕ),
      pageRankLoop cfg (mapWeights f g) dangling fuel ranks iters =
        pageRankLoop cfg g dangling fuel ranks iters := by
  intro fuel
  induction fuel with
  | zero => intro ranks iters; rfl
  | succ fuel ih =>
    intro ranks iters
    unfold pageRankLoop
    rw [pageRankStep_mapWeights]
    by_cases hc : (pageRankStep cfg g dangling ranks).2 < cfg.pageRankConvergence
    · rw [if_pos hc, if_pos hc]
    · rw [if_neg hc, if_neg hc, ih]

/-- Replacing all edge weights leaves the computed rank table (and iteration
count) unchanged. -/
theorem computePageRank_mapWeights (cfg : MemoryGraphConfig)
    (f : GraphEdge → ℚ) (g : MemoryGraph) :
    (computePageRank cfg (mapWeights f g)).2 = (computePageRank cfg g).2 := by
  by_cases hN : g.nodes.length = 0
  · have hN' : (mapWeights f g).nodes.length = 0 := hN
    rw [computePageRank_zero cfg g hN,
      computePageRank_zero cfg (mapWeights f g) hN']
  · have hN' : (mapWeights f g).nodes.length ≠ 0 := hN
    rw [computePageRank_pos cfg g hN, computePageRank_pos cfg (mapWeights f g) hN']
    simp only [danglingOf_mapWeights, pageRankLoop_mapWeights]
    rfl

theorem incomingSumOf_eq_spec {g : MemoryGraph} (hwf : WF g)
    (ranks : List (String × ℚ)) (v : String) (hv : v ∈ nodeKeys g) :
    incomingSumOf g ranks v = specIncomingSum g ranks v := by
  have hndK : (nodeKeys g).Nodup := hwf.1
  have hreviff := WF.rev_iff_hasEdge hwf
  obtain ⟨h1, h2, h3, h4, h5, h6, h7, h8, h9, h10⟩ := hwf
  have hsK : ∀ s, hasEdge g s v = true → s ∈ nodeKeys g := by
    intro s hs
    rcases hasEdge_iff_exists.mp hs with ⟨ls, hls, -⟩
    exact (h6 (s, ls) (alistGet_mem hls)).1
  obtain ⟨srcs, hsrcs⟩ :=
    Option.isSome_iff_exists.mp ((mem_keys_iff_isSome _ _).mp (h8 v hv).2)
  obtain ⟨-, hndS, -⟩ := h7 (v, srcs) (alistGet_mem hsrcs)
  have hmemS : ∀ s, s ∈ srcs ↔ hasEdge g s v = true := by
    intro s
    have := hreviff s v
    rw [hsrcs] at this
    simpa using this
  -- summand agreement on sources that hold an edge into v
  have hfun : ∀ s, hasEdge g s v = true →
      rankOf ranks s / (outDegreeOf g s : ℚ) =
        rankOf ranks s / ((((alistGet g.edges s).getD []).length : ℚ)) := by
    intro s hs
    rcases hasEdge_iff_exists.mp hs with ⟨ls, hls, e, he, -⟩
    have hlen : ls.length ≠ 0 := by
      intro hc
      rw [List.length_eq_zero] at hc
      rw [hc] at he
      simp at he
    unfold outDegreeOf
    rw [hls]
    show rankOf ranks s / ((if ls.length = 0 then 1 else ls.length : ℕ) : ℚ)
      = rankOf ranks s / ((ls.length : ℚ))
    rw [if_neg hlen]
  unfold incomingSumOf specIncomingSum
  rw [hsrcs]
  show (srcs.map (fun s => rankOf ranks s / (outDegreeOf g s : ℚ))).sum = _
  have hperm : List.Perm srcs ((nodeKeys g).filter (fun s => hasEdge g s v)) := by
    rw [List.perm_ext_iff_of_nodup hndS (hndK.filter _)]
    intro s
    rw [hmemS s, List.mem_filter]
    constructor
    · intro hs
      exact ⟨hsK s hs, hs⟩
    · rintro ⟨-, hs⟩
      exact hs
  calc (srcs.map (fun s => rankOf ranks s / (outDegreeOf g s : ℚ))).sum
      = (((nodeKeys g).filter (fun s => hasEdge g s v)).map
          (fun s => rankOf ranks s / (outDegreeOf g s : ℚ))).sum :=
        (hperm.map _).sum_eq
    _ = (((nodeKeys g).filter (fun s => hasEdge g s v)).map
          (fun s => rankOf ranks s /
            ((((alistGet g.edges s).getD []).length : ℚ)))).sum := by
        apply congrArg List.sum
        apply map_congr_mem
        intro s hs
        exact hfun s (by
          have := List.mem_filter.mp hs
          simpa using this.2)

/-- C5: In every iteration of `computePageRank` over a well-formed graph
with `N ≥ 1` nodes (each iteration applies `pageRankStep`), the new rank of
every node `v` equals
`(1 − d)/N + d·(Σ_{s → v} rank(s)/outDegree(s) + danglingSum/N)`,
with `outDegree(s)` the count of `s`'s outgoing edges and `danglingSum` the
summed ranks of zero-out-degree nodes; and the stored edge weights have no
influence on the computed ranks: replacing every weight leaves
`computePageRank`'s returned table and iteration count unchanged. -/
theorem pageRank_iteration_formula (cfg : MemoryGraphConfig) (g : MemoryGraph)
    (hwf : WF g) (hN : 1 ≤ g.nodes.length) (ranks : List (String × ℚ))
    (v : String) (hv : v ∈ nodeKeys g) (f : GraphEdge → ℚ) :
    alistGet (pageRankStep cfg g (danglingOf g) ranks).1 v =
      some ((1 - cfg.pageRankDamping) / (g.nodes.length : ℚ) +
        cfg.pageRankDamping * (specIncomingSum g ranks v +
          ((danglingOf g).map (rankOf ranks)).sum / (g.nodes.length : ℚ))) ∧
    (computePageRank cfg (mapWeights f g)).2 = (computePageRank cfg g).2 := by
  constructor
  · have hfst : (pageRankStep cfg g (danglingOf g) ranks).1 =
        (nodeKeys g).map (fun v =>
          (v, (1 - cfg.pageRankDamping) / (g.nodes.length : ℚ) +
            cfg.pageRankDamping * (incomingSumOf g ranks v +
              (((danglingOf g).map (rankOf ranks)).sum) / (g.nodes.length : ℚ)))) :=
      rfl
    rw [hfst, alistGet_map_pair, if_pos hv, incomingSumOf_eq_spec hwf ranks v hv]
  · exact computePageRank_mapWeights cfg f g

theorem pageRank_iteration_formula_witness :
    WF wg2 ∧ 1 ≤ wg2.nodes.length ∧ "b" ∈ nodeKeys wg2 ∧
    (alistGet (pageRankStep DEFAULT_CONFIG wg2 (danglingOf wg2)
        [("a", 1), ("b", 0)]).1 "b" =
      some ((1 - DEFAULT_CONFIG.pageRankDamping) / (wg2.nodes.length : ℚ) +
        DEFAULT_CONFIG.pageRankDamping * (specIncomingSum wg2 [("a", 1), ("b", 0)] "b" +
          ((danglingOf wg2).map (rankOf [("a", 1), ("b", 0)])).sum /
            (wg2.nodes.length : ℚ))) ∧
    (computePageRank DEFAULT_CONFIG (mapWeights (fun _ => 5) wg2)).2 =
      (computePageRank DEFAULT_CONFIG wg2).2) :=
  ⟨by decide, by decide, by decide,
    pageRank_iteration_formula DEFAULT_CONFIG wg2 (by decide) (by decide)
      [("a", 1), ("b", 0)] "b" (by decide) (fun _ => 5)⟩

-- ===== Ranking Blender (rankWithGraph) =====

/-- The parts of a `SearchResult` consumed by `rankWithGraph`. -/
structure SearchResult : Type where
  entry : MemoryEntry
  score : ℚ
deriving DecidableEq

/-- `RankedResult` of memory-graph.ts. -/
structure RankedResult : Type where
  entry : MemoryEntry
  score : ℚ
  pageRank : ℚ
  combinedScore : ℚ
  community : Option String
deriving DecidableEq

/-- The ordering produced by `.sort((a, b) => b.combinedScore - a.combinedScore)`:
non-increasing combined score. -/
def rrGE (a b : RankedResult) : Prop := b.combinedScore ≤ a.combinedScore

instance : DecidableRel rrGE := fun a b =>
  inferInstanceAs (Decidable (b.combinedScore ≤ a.combinedScore))

instance : IsTotal RankedResult rrGE :=
  ⟨fun a b => le_total b.combinedScore a.combinedScore⟩

instance : IsTrans RankedResult rrGE :=
  ⟨fun _ _ _ hab hbc => le_trans hbc hab⟩

/-- `rankWithGraph(searchResults, alpha)`: recompute PageRank when stale,
blend each score with the rescaled rank, and sort by descending combined
score (the model's sort fixes one order among exact ties, which the
comparator semantics leaves unspecified). -/
def rankWithGraph (cfg : MemoryGraphConfig) (g : MemoryGraph)
    (results : List SearchResult) (alpha : ℚ) :
    MemoryGraph × List RankedResult :=
  let g1 := if g.dirty then (computePageRank cfg g).1 else g
  let N : ℚ := if g1.nodes.length = 0 then 1 else (g1.nodes.length : ℚ)
  let mapped := results.map (fun r =>
    { entry := r.entry
      score := r.score
      pageRank := rankOf g1.pageRanks r.entry.id
      combinedScore := alpha * r.score +
        (1 - alpha) * (rankOf g1.pageRanks r.entry.id * N)
      community := alistGet g1.communities r.entry.id })
  (g1, List.insertionSort rrGE mapped)

-- ===== WF is preserved by computePageRank =====

theorem keys_foldl_set_mem (l : List String) (m : List (String × ℚ)) (c : ℚ)
    (v : String) :
    v ∈ keys (l.foldl (fun r x => alistSet r x c) m) ↔ v ∈ keys m ∨ v ∈ l := by
  induction l generalizing m with
  | nil => simp
  | cons x xs ih =>
    rw [List.foldl_cons, ih, mem_keys_alistSet]
    constructor
    · rintro ((hv | hv) | hv)
      · exact Or.inl hv
      · exact Or.inr (hv ▸ List.mem_cons_self _ _)
      · exact Or.inr (List.mem_cons_of_mem _ hv)
    · rintro (hv | hv)
      · exact Or.inl (Or.inl hv)
      · rcases List.mem_cons.mp hv with hv | hv
        · exact Or.inl (Or.inr hv)
        · exact Or.inr hv

theorem keys_foldl_set_nodup (l : List String) (m : List (String × ℚ)) (c : ℚ)
    (hnd : (keys m).Nodup) :
    (keys (l.foldl (fun r x => alistSet r x c) m)).Nodup := by
  induction l generalizing m with
  | nil => exact hnd
  | cons x xs ih =>
    rw [List.foldl_cons]
    exact ih _ (keys_alistSet_nodup _ hnd)

theorem keys_map_pair (l : List String) (f : String → ℚ) :
    keys (l.map (fun x => (x, f x))) = l := by
  induction l with
  | nil => rfl
  | cons x xs ih =>
    rw [List.map_cons, keys_cons, ih]

theorem pageRankLoop_preserves (cfg : MemoryGraphConfig) (g : MemoryGraph)
    (dangling : List String) (P : List (String × ℚ) → Prop)
    (hstep : ∀ ranks, P (pageRankStep cfg g dangling ranks).1) :
    ∀ (fuel : ℕ) (ranks : List (String × ℚ)) (iters : ℕ), P ranks →
      P (pageRankLoop cfg g dangling fuel ranks iters).1 := by
  intro fuel
  induction fuel with
  | zero => intro ranks iters h; exact h
  | succ fuel ih =>
    intro ranks iters h
    unfold pageRankLoop
    by_cases hc : (pageRankStep cfg g dangling ranks).2 < cfg.pageRankConvergence
    · rw [if_pos hc]
      exact hstep ranks
    · rw [if_neg hc]
      exact ih _ _ (hstep ranks)

/-- `computePageRank` keeps the structural invariant: the returned state has
duplicate-free rank keys that all belong to current nodes. -/
theorem wf_computePageRank (cfg : MemoryGraphConfig) {g : MemoryGraph}
    (hwf : WF g) : WF (computePageRank cfg g).1 := by
  by_cases hN : g.nodes.length = 0
  · rw [computePageRank_zero cfg g hN]
    exact hwf
  · rw [computePageRank_pos cfg g hN]
    obtain ⟨h1, h2, h3, h4, h5, h6, h7, h8, h9, h10⟩ := hwf
    have hP := pageRankLoop_preserves cfg g (danglingOf g)
      (fun ranks => (keys ranks).Nodup ∧ ∀ v ∈ keys ranks, v ∈ keys g.nodes)
      (by
        intro ranks
        constructor
        · rw [show (pageRankStep cfg g (danglingOf g) ranks).1 =
            (nodeKeys g).map (fun v =>
              (v, (1 - cfg.pageRankDamping) / (g.nodes.length : ℚ) +
                cfg.pageRankDamping * (incomingSumOf g ranks v +
                  (((danglingOf g).map (rankOf ranks)).sum) / (g.nodes.length : ℚ))))
            from rfl]
          rw [keys_map_pair]
          exact h1
        · intro v hv
          rw [show (pageRankStep cfg g (danglingOf g) ranks).1 =
            (nodeKeys g).map (fun v =>
              (v, (1 - cfg.pageRankDamping) / (g.nodes.length : ℚ) +
                cfg.pageRankDamping * (incomingSumOf g ranks v +
                  (((danglingOf g).map (rankOf ranks)).sum) / (g.nodes.length : ℚ))))
            from rfl] at hv
          rw [keys_map_pair] at hv
          exact hv)
      cfg.pageRankIterations
      ((nodeKeys g).foldl (fun r v => alistSet r v (1 / (g.nodes.length : ℚ)))
        g.pageRanks) 0
      (by
        constructor
        · exact keys_foldl_set_nodup _ _ _ h4
        · intro v hv
          rcases (keys_foldl_set_mem _ _ _ v).mp hv with hv | hv
          · exact h9 v hv
          · exact hv)
    refine ⟨h1, h2, h3, hP.1, h5, h6, ?_, h8, hP.2, h10⟩
    intro p hp
    obtain ⟨hm, hnd, hall⟩ := h7 p hp
    exact ⟨hm, hnd, hall⟩

-- ===== Claims C7 / C10 =====

theorem perm_of_eq {α : Type} {l₁ l₂ : List α} (h : l₁ = l₂) :
    List.Perm l₁ l₂ := h ▸ List.Perm.refl _

/-- The blended row of the claim: `combinedScore = α·score + (1−α)·(rank·N)`
with `N` the current node count. -/
def rankedOf (g1 : MemoryGraph) (alpha : ℚ) (r : SearchResult) : RankedResult :=
  { entry := r.entry
    score := r.score
    pageRank := rankOf g1.pageRanks r.entry.id
    combinedScore := alpha * r.score + (1 - alpha) *
      (rankOf g1.pageRanks r.entry.id * (g1.nodes.length : ℚ))
    community := alistGet g1.communities r.entry.id }

theorem computePageRank_nodes (cfg : MemoryGraphConfig) (g : MemoryGraph) :
    (computePageRank cfg g).1.nodes = g.nodes := by
  by_cases hN : g.nodes.length = 0
  · rw [computePageRank_zero cfg g hN]
  · rw [computePageRank_pos cfg g hN]

/-- C7: `rankWithGraph` recomputes PageRank exactly when the staleness flag
is set, assigns each input result the combined score
`α·score + (1−α)·(pageRank·N)` (with `N` the current node count and
`pageRank` the node's cached rank), and returns the rows sorted by
non-increasing combined score. -/
theorem rankWithGraph_blend_sorted (cfg : MemoryGraphConfig) (g : MemoryGraph)
    (results : List SearchResult) (alpha : ℚ) (hwf : WF g) :
    ((rankWithGraph cfg g results alpha).1 =
      if g.dirty then (computePageRank cfg g).1 else g) ∧
    List.Perm (rankWithGraph cfg g results alpha).2
      (results.map (rankedOf (rankWithGraph cfg g results alpha).1 alpha)) ∧
    List.Sorted rrGE (rankWithGraph cfg g results alpha).2 := by
  have hwf1 : WF (if g.dirty = true then (computePageRank cfg g).1 else g) := by
    by_cases hd : g.dirty
    · rw [if_pos hd]; exact wf_computePageRank cfg hwf
    · rw [if_neg hd]; exact hwf
  refine ⟨rfl, (List.perm_insertionSort rrGE _).trans (perm_of_eq (map_congr_mem ?_)),
    List.sorted_insertionSort rrGE _⟩
  intro r hr
  set G := (if g.dirty = true then (computePageRank cfg g).1 else g) with hG
  have hR1 : (rankWithGraph cfg g results alpha).1 = G := rfl
  rw [hR1]
  obtain ⟨-, -, -, -, -, -, -, -, h9', -⟩ := hwf1
  unfold rankedOf
  by_cases hlen : G.nodes.length = 0
  · have hrk : rankOf G.pageRanks r.entry.id = 0 := by
      unfold rankOf
      rw [alistGet_eq_none_of_not_mem ?_]
      · rfl
      · intro hc
        have hmem := h9' r.entry.id hc
        have hnil : G.nodes = [] := List.length_eq_zero.mp hlen
        rw [hnil] at hmem
        simp [keys] at hmem
    rw [if_pos hlen, hlen, hrk]
    simp
  · rw [if_neg hlen]

/-- The two-row result list used by the C7 witness. -/
def wResults : List SearchResult :=
  [{ entry := wEntryB, score := 1 }, { entry := entry9, score := 0 }]

theorem rankWithGraph_blend_sorted_witness :
    WF wg6 ∧
    (((rankWithGraph DEFAULT_CONFIG wg6 wResults (7/10)).1 =
        if wg6.dirty then (computePageRank DEFAULT_CONFIG wg6).1 else wg6) ∧
      List.Perm (rankWithGraph DEFAULT_CONFIG wg6 wResults (7/10)).2
        (wResults.map (rankedOf (rankWithGraph DEFAULT_CONFIG wg6 wResults (7/10)).1
          (7/10))) ∧
      List.Sorted rrGE (rankWithGraph DEFAULT_CONFIG wg6 wResults (7/10)).2) :=
  ⟨by decide,
    rankWithGraph_blend_sorted DEFAULT_CONFIG wg6 wResults (7/10) (by decide)⟩

/-- C10: an input result whose entry id is not a node is still returned:
its row carries pageRank 0, combined score `α·score`, and no community
label, and it is sorted together with the rest. -/
theorem rankWithGraph_unknown_id (cfg : MemoryGraphConfig) (g : MemoryGraph)
    (results : List SearchResult) (alpha : ℚ) (r : SearchResult) (hwf : WF g)
    (hr : r ∈ results) (hmiss : alistHas g.nodes r.entry.id = false) :
    ∃ x ∈ (rankWithGraph cfg g results alpha).2,
      x.entry = r.entry ∧ x.score = r.score ∧ x.pageRank = 0 ∧
      x.combinedScore = alpha * r.score ∧ x.community = none := by
  have hwf1 : WF (if g.dirty = true then (computePageRank cfg g).1 else g) := by
    by_cases hd : g.dirty
    · rw [if_pos hd]; exact wf_computePageRank cfg hwf
    · rw [if_neg hd]; exact hwf
  set G := (if g.dirty = true then (computePageRank cfg g).1 else g) with hG
  have hGnodes : G.nodes = g.nodes := by
    rw [hG]
    by_cases hd : g.dirty
    · rw [if_pos hd]
      exact computePageRank_nodes cfg g
    · rw [if_neg hd]
  obtain ⟨-, -, -, -, -, -, -, -, h9', h10'⟩ := hwf1
  have hnotmem : r.entry.id ∉ keys G.nodes := by
    rw [hGnodes]
    exact (alistHas_false_iff _ _).mp hmiss
  have hrk : rankOf G.pageRanks r.entry.id = 0 := by
    unfold rankOf
    rw [alistGet_eq_none_of_not_mem (fun hc => hnotmem (h9' r.entry.id hc))]
    rfl
  have hcomm : alistGet G.communities r.entry.id = none :=
    alistGet_eq_none_of_not_mem (fun hc => hnotmem (h10' r.entry.id hc))
  refine ⟨{ entry := r.entry
            score := r.score
            pageRank := rankOf G.pageRanks r.entry.id
            combinedScore := alpha * r.score + (1 - alpha) *
              (rankOf G.pageRanks r.entry.id *
                (if G.nodes.length = 0 then 1 else (G.nodes.length : ℚ)))
            community := alistGet G.communities r.entry.id }, ?_, rfl, rfl, hrk, ?_, hcomm⟩
  · show _ ∈ List.insertionSort rrGE _
    rw [List.mem_insertionSort]
    exact List.mem_map.mpr ⟨r, hr, rfl⟩
  · rw [hrk]
    ring

theorem rankWithGraph_unknown_id_witness :
    WF wg6 ∧
    ({ entry := entry9, score := 1 : SearchResult } ∈
      [{ entry := entry9, score := 1 : SearchResult }]) ∧
    alistHas wg6.nodes ({ entry := entry9, score := 1 : SearchResult }).entry.id
      = false ∧
    (∃ x ∈ (rankWithGraph DEFAULT_CONFIG wg6
        [{ entry := entry9, score := 1 }] (7/10)).2,
      x.entry = entry9 ∧ x.score = 1 ∧ x.pageRank = 0 ∧
      x.combinedScore = (7/10) * 1 ∧ x.community = none) :=
  ⟨by decide, List.mem_singleton.mpr rfl, by decide,
    rankWithGraph_unknown_id DEFAULT_CONFIG wg6
      [{ entry := entry9, score := 1 }] (7/10)
      { entry := entry9, score := 1 } (by decide)
      (List.mem_singleton.mpr rfl) (by decide)⟩

-- ===== Community Detector (detectCommunities) =====

/-- `labelCounts.set(lbl, (labelCounts.get(lbl) || 0) + w)`: bump a tally
entry in place, appending on first sight (insertion order preserved). -/
def bumpTally (counts : List (String × ℚ)) (lbl : String) (w : ℚ) :
    List (String × ℚ) :=
  match alistGet counts lbl with
  | some c => alistSet counts lbl (c + w)
  | none => counts ++ [(lbl, w)]

/-- The tally of one node: edge weights per target label (outgoing), then
`1` per recorded incoming source's label. -/
def tallyFor (g : MemoryGraph) (labels : List (String × String))
    (nodeId : String) : List (String × ℚ) :=
  let afterOut := ((alistGet g.edges nodeId).getD []).foldl
    (fun c e => match alistGet labels e.targetId with
      | some lbl => bumpTally c lbl e.weight
      | none => c) []
  ((alistGet g.reverseEdges nodeId).getD []).foldl
    (fun c s => match alistGet labels s with
      | some lbl => bumpTally c lbl 1
      | none => c) afterOut

/-- The selection scan: start from `(current label, 0)` and replace only on
a strictly greater tally (ties keep the first maximal label seen). -/
def selectLabel (counts : List (String × ℚ)) (current : String) : String :=
  (counts.foldl (fun best p => if best.2 < p.2 then p else best) (current, 0)).1

/-- Visiting one node during a pass: relabel when the scan picks a
different label, recording that the pass changed something. -/
def passVisit (g : MemoryGraph) (st : List (String × String) × Bool)
    (nodeId : String) : List (String × String) × Bool :=
  let counts := tallyFor g st.1 nodeId
  if counts.isEmpty then st
  else
    let current := (alistGet st.1 nodeId).getD ""
    let maxLabel := selectLabel counts current
    if maxLabel = current then st
    else (alistSet st.1 nodeId maxLabel, true)

/-- The pass loop: up to 20 passes (the code's hard cap), each visiting the
node ids in the externally supplied randomized order for that pass, stopping
early when a full pass changes nothing; returns the final labels and the
number of passes performed. -/
def commLoop (g : MemoryGraph) (orders : ℕ → List String) :
    ℕ → ℕ → List (String × String) → List (String × String) × ℕ
  | 0, iter, labels => (labels, iter)
  | fuel + 1, iter, labels =>
    let res := (orders iter).foldl (passVisit g) (labels, false)
    if res.2 then commLoop g orders fuel (iter + 1) res.1
    else (res.1, iter + 1)

/-- `detectCommunities()`: labels start as singleton communities; the
randomized visit orders are supplied externally (`orders`), one per pass.
Returns the updated state, the label table, and the passes performed. -/
def detectCommunities (g : MemoryGraph) (orders : ℕ → List String) :
    MemoryGraph × List (String × String) × ℕ :=
  let initLabels := (nodeKeys g).map (fun v => (v, v))
  let res := commLoop g orders 20 0 initLabels
  ({ g with communities := res.1 }, res.1, res.2)

theorem detectCommunities_eq (g : MemoryGraph) (orders : ℕ → List String) :
    detectCommunities g orders =
      ({ g with communities :=
          (commLoop g orders 20 0 ((nodeKeys g).map (fun v => (v, v)))).1 },
       (commLoop g orders 20 0 ((nodeKeys g).map (fun v => (v, v)))).1,
       (commLoop g orders 20 0 ((nodeKeys g).map (fun v => (v, v)))).2) := rfl

theorem alistGet_map_self (l : List String) (v : String) :
    alistGet (l.map (fun x => (x, x))) v = if v ∈ l then some v else none := by
  induction l with
  | nil => simp [alistGet_nil]
  | cons x xs ih =>
    rw [List.map_cons, alistGet_cons]
    by_cases hx : x = v
    · simp [hx]
    · simp only [hx, if_neg, not_false_iff]
      rw [ih]
      by_cases hv : v ∈ xs
      · rw [if_pos hv, if_pos (List.mem_cons_of_mem _ hv)]
      · rw [if_neg hv, if_neg (by
          intro hc
          rcases List.mem_cons.mp hc with hc | hc
          · exact hx hc.symm
          · exact hv hc)]

theorem commLoop_iters (g : MemoryGraph) (orders : ℕ → List String) :
    ∀ (fuel iter : ℕ) (labels : List (String × String)),
      (commLoop g orders fuel iter labels).2 ≤ iter + fuel := by
  intro fuel
  induction fuel with
  | zero => intro iter labels; exact Nat.le_refl iter
  | succ fuel ih =>
    intro iter labels
    unfold commLoop
    by_cases hc : ((orders iter).foldl (passVisit g) (labels, false)).2
    · rw [if_pos hc]
      calc (commLoop g orders fuel (iter + 1) _).2 ≤ (iter + 1) + fuel := ih _ _
        _ = iter + (fuel + 1) := by omega
    · rw [if_neg hc]
      show iter + 1 ≤ iter + (fuel + 1)
      omega

theorem commLoop_preserves (g : MemoryGraph) (orders : ℕ → List String)
    (P : List (String × String) → Prop)
    (hpass : ∀ (st : List (String × String) × Bool) (nodeId : String),
      P st.1 → P (passVisit g st nodeId).1) :
    ∀ (fuel iter : ℕ) (labels : List (String × String)), P labels →
      P (commLoop g orders fuel iter labels).1 := by
  intro fuel
  induction fuel with
  | zero => intro iter labels h; exact h
  | succ fuel ih =>
    intro iter labels h
    unfold commLoop
    have hfold : P (((orders iter).foldl (passVisit g) (labels, false)).1) :=
      foldl_preserve (fun st => P st.1) (passVisit g)
        (fun a b ha => hpass a b ha) _ _ h
    by_cases hc : ((orders iter).foldl (passVisit g) (labels, false)).2
    · rw [if_pos hc]
      exact ih _ _ hfold
    · rw [if_neg hc]
      exact hfold

theorem tallyFor_isolated (g : MemoryGraph) (labels : List (String × String))
    (v : String) (hout : (alistGet g.edges v).getD [] = [])
    (hin : (alistGet g.reverseEdges v).getD [] = []) :
    tallyFor g labels v = [] := by
  unfold tallyFor
  rw [hout, hin]
  rfl

theorem passVisit_preserves_isolated (g : MemoryGraph) (v : String)
    (hout : (alistGet g.edges v).getD [] = [])
    (hin : (alistGet g.reverseEdges v).getD [] = [])
    (st : List (String × String) × Bool) (nodeId : String)
    (hlab : alistGet st.1 v = some v) :
    alistGet (passVisit g st nodeId).1 v = some v := by
  unfold passVisit
  by_cases hn : nodeId = v
  · rw [hn, tallyFor_isolated g st.1 v hout hin]
    rw [if_pos (by rfl)]
    exact hlab
  · by_cases hc : (tallyFor g st.1 nodeId).isEmpty
    · rw [if_pos hc]
      exact hlab
    · rw [if_neg hc]
      by_cases hsel : selectLabel (tallyFor g st.1 nodeId)
          ((alistGet st.1 nodeId).getD "") = (alistGet st.1 nodeId).getD ""
      · rw [if_pos hsel]
        exact hlab
      · rw [if_neg hsel]
        show alistGet (alistSet st.1 nodeId _) v = some v
        rw [alistGet_alistSet_ne _ _ (fun hh => hn hh.symm)]
        exact hlab

/-- C8: for every graph and every sequence of (arbitrary, e.g. randomized)
visit orders, `detectCommunities` performs at most 20 passes — it always
terminates — and every node with no incident edges (no outgoing edges and no
recorded incoming sources) ends with its own id as its label. -/
theorem detectCommunities_bounded_singleton (g : MemoryGraph)
    (orders : ℕ → List String) :
    (detectCommunities g orders).2.2 ≤ 20 ∧
    ∀ v ∈ nodeKeys g, (alistGet g.edges v).getD [] = [] →
      (alistGet g.reverseEdges v).getD [] = [] →
      alistGet (detectCommunities g orders).2.1 v = some v := by
  rw [detectCommunities_eq]
  constructor
  · have := commLoop_iters g orders 20 0 ((nodeKeys g).map (fun x => (x, x)))
    simpa using this
  · intro v hv hout hin
    apply commLoop_preserves g orders
      (fun labels => alistGet labels v = some v)
      (fun st nodeId h => passVisit_preserves_isolated g v hout hin st nodeId h)
    rw [alistGet_map_self, if_pos hv]

theorem detectCommunities_bounded_singleton_witness :
    ((detectCommunities wg1 (fun _ => ["a"])).2.2 ≤ 20) ∧
    ("a" ∈ nodeKeys wg1) ∧
    ((alistGet wg1.edges "a").getD [] = []) ∧
    ((alistGet wg1.reverseEdges "a").getD [] = []) ∧
    alistGet (detectCommunities wg1 (fun _ => ["a"])).2.1 "a" = some "a" :=
  ⟨(detectCommunities_bounded_singleton wg1 (fun _ => ["a"])).1,
    by decide, by decide, by decide,
    (detectCommunities_bounded_singleton wg1 (fun _ => ["a"])).2 "a"
      (by decide) (by decide) (by decide)⟩

end MemoryGraphModel
